import Mathlib

/-!
# A verification model of the pageserver storage-engine core

This file gives a shallow embedding, in Lean 4, of the parts of the
pageserver storage engine that the specification talks about:

* `ephemeral_file.rs` — ephemeral file naming (`create` / `is_ephemeral_file`);
* `inmemory_layer.rs` — the in-memory layer (`SerializedBatch::from_values`,
  `put_batch`, `freeze`, `write_to_disk`) together with its per-key index;
* `compaction.rs` — the per-key GC-compaction algorithm
  (`generate_key_retention`), the shard-ancestor rewrite eligibility scan
  (`compact_shard_ancestors`), and the cancellation behaviour of
  `compact_level0_phase1` and `compact_with_gc`.

Machine integers are modelled as `Nat` (offsets, sizes, LSNs never overflow in
the paths that are modelled; where a Rust width matters — the `u32` parse in
`is_ephemeral_file` — the bound is made explicit).  Fallible operations return
`Except`; a Rust `panic!` / failed `assert!` is modelled as a distinguished
error value.  Asynchronous I/O is modelled by pure state passing; the
cancellation token is modelled as a `Nat → Bool` function giving the state of
the token at the n-th point in time at which the code samples it.
-/

namespace NeonSpec

/-! ## Basic data model: keys, LSNs, values

An `Lsn` (monotonically increasing 64-bit sequence number) and a `Key`
(fixed-width 128-bit ordered identifier) are both modelled as plain `Nat`.
In the signatures below, a `Nat` in a position the source types as `Lsn`
or `Key` is that number. -/

/-- `Key::MIN`. -/
def Key.MIN : Nat := 0

/-- `Key::MAX` (all fields at their maximum; modelled as `2 ^ 128 - 1`). -/
def Key.MAX : Nat := 2 ^ 128 - 1

/-- `Key::next` — the successor key. -/
def Key.next (k : Nat) : Nat := k + 1

/-- `Lsn::INVALID` is `Lsn(0)`. -/
def lsnInvalid : Nat := 0

/-- `Lsn::is_valid` — an LSN is valid iff it is nonzero. -/
def lsnIsValid (l : Nat) : Bool := decide (l ≠ 0)

/-- Raw bytes. -/
abbrev Bytes := List Nat

/-- Modelled from the spec: `Value` is a tagged variant, either `Image(bytes)`
(a full page snapshot, `will_init = true`) or `WalRecord(record)` (an
incremental record whose `will_init` flag is true iff the record is
self-initializing).  The Rust type lives in `repository.rs` /
`pageserver_api`, which is not under `src/`; the wal record is modelled by
its `will_init` flag plus payload bytes. -/
inductive Value where
  | image (data : Bytes)
  | walRecord (selfInit : Bool) (data : Bytes)
deriving DecidableEq

/-- `Value::will_init` — true for images and for self-initializing wal records. -/
def Value.will_init : Value → Bool
  | .image _ => true
  | .walRecord w _ => w

/-- `Value::is_image`. -/
def Value.is_image : Value → Bool
  | .image _ => true
  | .walRecord _ _ => false

/-! ## Ephemeral file naming (`ephemeral_file.rs`)

`EphemeralFile::create` allocates filenames `ephemeral-<n>` where `n` is drawn
from a process-wide monotonic `AtomicU64` counter (`NEXT_FILENAME`);
`is_ephemeral_file` recognizes a filename by stripping the prefix
`"ephemeral-"` and parsing the remainder with `rest.parse::<u32>()`. -/

/-- The filename produced by `EphemeralFile::create` for counter value `n`:
`format!("ephemeral-{filename_disambiguator}")`.  The disambiguator is a
`u64`, so `n` ranges over `[0, 2^64)`. -/
def ephemeral_file_name (n : Nat) : String := "ephemeral-" ++ toString n

/-- `str::strip_prefix` on character lists: `some rest` iff the first argument
is a prefix, with `rest` the remainder. -/
def stripPrefixChars : List Char → List Char → Option (List Char)
  | [], s => some s
  | _ :: _, [] => none
  | p :: ps, c :: cs => if c = p then stripPrefixChars ps cs else none

/-- ASCII digit test. -/
def isAsciiDigit (c : Char) : Bool := decide ('0' ≤ c) && decide (c ≤ '9')

/-- Numeric value of an ASCII digit. -/
def digitVal (c : Char) : Nat := c.toNat - Char.toNat '0'

/-- Accumulating decimal parse over a character list; fails on any non-digit. -/
def parseDigitsAux : List Char → Nat → Option Nat
  | [], acc => some acc
  | c :: rest, acc =>
    if isAsciiDigit c then parseDigitsAux rest (acc * 10 + digitVal c) else none

/-- Model of Rust `str::parse::<u32>`: an optional leading `+`, then at least
one ASCII digit and nothing else, and the resulting value must fit in `u32`
(a value `≥ 2^32` is an overflow and the parse fails). -/
def parse_u32 (cs : List Char) : Option Nat :=
  let cs := match cs with
    | '+' :: rest => rest
    | _ => cs
  match cs with
  | [] => none
  | _ =>
    match parseDigitsAux cs 0 with
    | some v => if v < 2 ^ 32 then some v else none
    | none => none

/-- `is_ephemeral_file`: strip the prefix `"ephemeral-"` and require the rest
to parse as a `u32`. -/
def is_ephemeral_file (filename : String) : Bool :=
  match stripPrefixChars "ephemeral-".toList filename.toList with
  | some rest => (parse_u32 rest).isSome
  | none => false

/-! ## Shard-ancestor rewrite eligibility (`compact_shard_ancestors`)

The per-layer classification performed by the scan loop of
`compact_shard_ancestors`: for each historic layer it decides to drop it,
skip it, or select it for rewrite (bounded by `rewrite_max`). -/

/-- `u32::MAX`, the sentinel `ShardedRange::page_count` returns for
unrepresentably large ranges. -/
def u32MAX : Nat := 2 ^ 32 - 1

/-- The data of one historic layer that the scan loop of
`compact_shard_ancestors` consults. -/
structure HistoricLayerInfo where
  /-- `layer.metadata().shard.shard_count == self.shard_identity.count` -/
  shardCountMatches : Bool
  /-- `ShardedRange::new(key_range, shard_identity).page_count()` -/
  localPageCount : Nat
  /-- `ShardedRange::raw_size(key_range)` -/
  rawPageCount : Nat
  /-- `layer_desc.get_lsn_range().end` -/
  lsnRangeEnd : Nat
  /-- `layer_desc.is_delta()` -/
  isDelta : Bool
  /-- `layer.metadata().generation == self.generation` -/
  generationMatchesCurrent : Bool
deriving DecidableEq

/-- The classification result for one historic layer. -/
inductive AncestorDecision where
  /-- The layer belongs to the current shard generation of shards; ignored. -/
  | skipNotAncestor
  /-- Pushed onto `drop_layers`. -/
  | dropLayer
  /-- Entirely shard-local; no need to filter. -/
  | skipAllLocal
  /-- Still inside the PITR window (`lsn_range.end >= latest_gc_cutoff`). -/
  | skipInPitrWindow
  /-- Delta layer; rewrite not implemented. -/
  | skipDelta
  /-- Same generation as current; rewrite would collide. -/
  | skipSameGeneration
  /-- `layers_to_rewrite` already reached `rewrite_max`. -/
  | deferOverBudget
  /-- Pushed onto `layers_to_rewrite`. -/
  | rewrite
deriving DecidableEq

/-- The decision taken by the scan loop of `compact_shard_ancestors` for one
historic layer, in source order.  Note: the source contains a
"layer is already mostly local" case (`local_page_count > raw_page_count / 2`)
between `skipAllLocal` and the PITR check, but that case only emits a
`debug!` log line and does NOT `continue`, so it has no effect on the
decision and therefore does not appear here. -/
def compact_shard_ancestors_decision (latestGcCutoff : Nat) (budgetLeft : Bool)
    (l : HistoricLayerInfo) : AncestorDecision :=
  if l.shardCountMatches then .skipNotAncestor
  else if l.localPageCount = 0 then .dropLayer
  else if l.localPageCount ≠ u32MAX && l.localPageCount = l.rawPageCount then .skipAllLocal
  else if decide (latestGcCutoff ≤ l.lsnRangeEnd) then .skipInPitrWindow
  else if l.isDelta then .skipDelta
  else if l.generationMatchesCurrent then .skipSameGeneration
  else if !budgetLeft then .deferOverBudget
  else .rewrite

/-! ## Blob format and serialized batches (`inmemory_layer.rs`, `ephemeral_file.rs`)

`SerializedBatch::write_blob_length` writes the on-disk length header: one
byte for `len < 0x80`, otherwise four big-endian bytes with the top bit of
the first byte set. -/

/-- `SerializedBatch::write_blob_length`: the bytes of the length header. -/
def write_blob_length (len : Nat) : List Nat :=
  if len < 0x80 then [len]
  else
    [Nat.lor ((len >>> 24) % 256) 0x80, (len >>> 16) % 256, (len >>> 8) % 256, len % 256]

/-- Modelled from the spec: reading a blob at a given offset (`read_blob` of
`block_io.rs`, which is not under `src/`).  Per §6 of the spec, the length
header at the offset is one byte when its value is `< 0x80`, otherwise four
big-endian bytes with the top bit of the first byte set; the payload follows
the header.  Returns `none` when the file is too short (an I/O error). -/
def read_blob (file : Bytes) (pos : Nat) : Option Bytes :=
  match file.get? pos with
  | none => none
  | some b0 =>
    if b0 < 0x80 then
      let payload := (file.drop (pos + 1)).take b0
      if payload.length = b0 then some payload else none
    else
      match file.get? (pos + 1), file.get? (pos + 2), file.get? (pos + 3) with
      | some b1, some b2, some b3 =>
        let len := (Nat.land b0 0x7f) <<< 24 + b1 <<< 16 + b2 <<< 8 + b3
        let payload := (file.drop (pos + 4)).take len
        if payload.length = len then some payload else none
      | _, _, _ => none

/-- `SerializedBatchOffset` — offset of a particular value within a
serialized batch, relative to the start of the batch's buffer. -/
structure SerializedBatchOffset where
  key : Nat
  lsn : Nat
  offset : Nat
deriving DecidableEq

/-- `SerializedBatch` — a raw buffer of length-prefixed serialized values
plus the parallel offset index and the maximum LSN of the batch. -/
structure SerializedBatch where
  raw : Bytes
  offsets : List SerializedBatchOffset
  max_lsn : Nat
deriving DecidableEq

/-- `SerializedBatch::from_values`: serialize a batch of
`(key, lsn, val_ser_size, value)` tuples into one flat buffer, each value
preceded by its length header, recording each value's relative offset and
the running maximum LSN (initialized to `Lsn(0)`).  The value encoding
itself (`val.ser_into`, from the external `bin_ser` crate) is a parameter. -/
def SerializedBatch.from_values (ser : Value → Bytes)
    (batch : List (Nat × Nat × Nat × Value)) : SerializedBatch :=
  let step := fun (acc : Bytes × List SerializedBatchOffset × Nat)
      (item : Nat × Nat × Nat × Value) =>
    let (buf, offs, m) := acc
    let (key, lsn, valSerSize, val) := item
    let relativeOff := buf.length
    (buf ++ write_blob_length valSerSize ++ ser val,
     offs ++ [⟨key, lsn, relativeOff⟩],
     max m lsn)
  let (raw, offsets, maxLsn) := batch.foldl step ([], [], 0)
  ⟨raw, offsets, maxLsn⟩

/-- A simple injective value codec, standing in for the external `bin_ser`
encoding when the model is run on concrete inputs. -/
def trialSer : Value → Bytes
  | .image b => 0 :: b
  | .walRecord true b => 1 :: b
  | .walRecord false b => 2 :: b

/-- Decoder matching `trialSer`. -/
def trialDes : Bytes → Option Value
  | 0 :: b => some (.image b)
  | 1 :: b => some (.walRecord true b)
  | 2 :: b => some (.walRecord false b)
  | _ => none

/-! ## The in-memory layer (`inmemory_layer.rs`)

`InMemoryLayerInner.index` is a `BTreeMap<CompactKey, VecMap<Lsn, u64>>`,
modelled as a key-sorted association list of LSN-sorted association lists;
`InMemoryLayerInner.file` is the ephemeral file's byte contents (the write
path only ever appends, and `write_raw` returns the pre-write
`bytes_written()` as the base offset). -/

/-- The in-memory layer: `start_lsn`, the once-set `end_lsn`
(`OnceLock<Lsn>`, `none` while the layer is Open), the per-key version
index, and the bytes of the backing ephemeral file. -/
structure InMemoryLayer where
  startLsn : Nat
  endLsn : Option Nat
  index : List (Nat × List (Nat × Nat))
  file : Bytes
deriving DecidableEq

/-- `InMemoryLayer::create` — a new, empty, Open in-memory layer. -/
def InMemoryLayer.create (startLsn : Nat) : InMemoryLayer :=
  ⟨startLsn, none, [], []⟩

/-- Modelled from the spec: the per-key index is an
`ordered_map<LSN, offset>` (`VecMap`, from the `utils` crate, which is not
under `src/`); per §4.2, `put_batch` "updates `index[key]` by appending
`(lsn, B + rel_off)`; if an entry for that exact `(key, lsn)` already
exists, overwrite it".  Ordered insert returning the previous offset for
that LSN, if any. -/
def vecMapInsert : List (Nat × Nat) → Nat → Nat → Option Nat × List (Nat × Nat)
  | [], lsn, off => (none, [(lsn, off)])
  | (l, o) :: rest, lsn, off =>
    if lsn = l then (some o, (lsn, off) :: rest)
    else if lsn < l then (none, (lsn, off) :: (l, o) :: rest)
    else
      let (old, rest') := vecMapInsert rest lsn off
      (old, (l, o) :: rest')

/-- `inner.index.entry(key).or_default()` followed by the ordered insert:
key-sorted insert into the outer map. -/
def indexInsert : List (Nat × List (Nat × Nat)) → Nat → Nat → Nat →
    Option Nat × List (Nat × List (Nat × Nat))
  | [], key, lsn, off => (none, [(key, [(lsn, off)])])
  | (k, vm) :: rest, key, lsn, off =>
    if key = k then
      let (old, vm') := vecMapInsert vm lsn off
      (old, (k, vm') :: rest)
    else if key < k then
      (none, (key, [(lsn, off)]) :: (k, vm) :: rest)
    else
      let (old, rest') := indexInsert rest key lsn off
      (old, (k, vm) :: rest')

/-- Ordered lookup in a version list (the map lookup matching the ordered
insert). -/
def vecGet : List (Nat × Nat) → Nat → Option Nat
  | [], _ => none
  | (l, o) :: rest, lsn =>
    if lsn = l then some o else if lsn < l then none else vecGet rest lsn

/-- Ordered lookup of the version list of a key. -/
def indexGet : List (Nat × List (Nat × Nat)) → Nat → Option (List (Nat × Nat))
  | [], _ => none
  | (k, vm) :: rest, key =>
    if key = k then some vm else if key < k then none else indexGet rest key

/-- Look up the offset recorded for an exact `(key, lsn)`. -/
def indexLookup (ix : List (Nat × List (Nat × Nat))) (key : Nat) (lsn : Nat) :
    Option Nat :=
  match indexGet ix key with
  | none => none
  | some vm => vecGet vm lsn

/-- Error of the write path: `Writable` — an attempt to write to a frozen
layer (`assert_writable`; per §7 of the spec, surfaced as an error). -/
inductive PutBatchErr where
  | writable
deriving DecidableEq

/-- Apply a batch's offset entries to the index, collecting the `(key, lsn)`
pairs for which a previous entry existed and was overwritten (each such pair
makes `put_batch` emit a `warn!`). -/
def applyOffsets (baseOff : Nat) : List SerializedBatchOffset →
    List (Nat × List (Nat × Nat)) → List (Nat × Nat) →
    List (Nat × List (Nat × Nat)) × List (Nat × Nat)
  | [], ix, warns => (ix, warns)
  | ob :: rest, ix, warns =>
    let res := indexInsert ix ob.key ob.lsn (baseOff + ob.offset)
    applyOffsets baseOff rest res.2
      (if res.1.isSome then warns ++ [(ob.key, ob.lsn)] else warns)

/-- `InMemoryLayer::put_batch`: fails with `Writable` when the layer is
frozen (`assert_writable`); otherwise appends the batch's raw buffer to the
file at base offset `B = bytes_written()` and records `(lsn, B + rel_off)`
under each key, warning on overwritten `(key, lsn)` entries.  Returns the
new layer state together with the list of warned pairs. -/
def put_batch (l : InMemoryLayer) (b : SerializedBatch) :
    Except PutBatchErr (InMemoryLayer × List (Nat × Nat)) :=
  if l.endLsn.isSome then .error .writable
  else
    let baseOff := l.file.length
    let res := applyOffsets baseOff b.offsets l.index []
    .ok ({ l with file := l.file ++ b.raw, index := res.1 }, res.2)

/-- Failures of `freeze` (each models a failed `assert!` / `expect`). -/
inductive FreezeErr where
  /-- `assert!(self.start_lsn < end_lsn)` failed. -/
  | startNotBelowEnd
  /-- `self.end_lsn.set(end_lsn).expect("end_lsn set only once")` failed. -/
  | endLsnAlreadySet
  /-- The debug-mode invariant check `assert!(*lsn < end_lsn)` failed. -/
  | indexedLsnAtOrAboveEnd
deriving DecidableEq

/-- Does every indexed LSN lie strictly below `endLsn`? -/
def allIndexedLsnsBelow (ix : List (Nat × List (Nat × Nat))) (endLsn : Nat) : Bool :=
  ix.all (fun kv => kv.2.all (fun p => decide (p.1 < endLsn)))

/-- `InMemoryLayer::freeze(end_lsn)`: asserts `start_lsn < end_lsn`, records
`end_lsn` exactly once (the `OnceLock` refuses a second set), and checks the
debug-mode invariant that every indexed LSN is strictly below `end_lsn`. -/
def freeze (l : InMemoryLayer) (endLsn : Nat) : Except FreezeErr InMemoryLayer :=
  if !decide (l.startLsn < endLsn) then .error .startNotBelowEnd
  else
    match l.endLsn with
    | some _ => .error .endLsnAlreadySet
    | none =>
      if allIndexedLsnsBelow l.index endLsn then .ok { l with endLsn := some endLsn }
      else .error .indexedLsnAtOrAboveEnd

/-! ## Flushing a frozen layer (`write_to_disk`) -/

/-- Descriptor of the produced persistent delta layer: key range and LSN
range (`PersistentLayerDesc`, from `storage_layer`, whose key range here is
fixed by the `DeltaLayerWriter::new` / `finish` arguments). -/
structure PersistentLayerDesc where
  keyStart : Nat
  keyEnd : Nat
  lsnStart : Nat
  lsnEnd : Nat
deriving DecidableEq

/-- Modelled from the spec: `DeltaLayerWriter` (from `delta_layer.rs`, which
is not under `src/`).  Per §6 a delta layer's body is the sequence of
`(key, lsn, length-prefixed value-bytes)` entries written into it;
`put_value_bytes` appends one entry (with its `will_init` flag) and
`finish(key_end)` seals the layer with the key range
`[key_start, key_end)`. -/
structure DeltaLayerWriter where
  keyStart : Nat
  lsnStart : Nat
  lsnEnd : Nat
  entries : List (Nat × Nat × Bool × Bytes)
deriving DecidableEq

/-- `DeltaLayerWriter::new(key_start, lsn_range)`. -/
def DeltaLayerWriter.new (keyStart : Nat) (lsnStart lsnEnd : Nat) : DeltaLayerWriter :=
  ⟨keyStart, lsnStart, lsnEnd, []⟩

/-- `DeltaLayerWriter::put_value_bytes(key, lsn, buf, will_init)`. -/
def DeltaLayerWriter.put_value_bytes (w : DeltaLayerWriter) (key : Nat) (lsn : Nat)
    (buf : Bytes) (wi : Bool) : DeltaLayerWriter :=
  { w with entries := w.entries ++ [(key, lsn, wi, buf)] }

/-- `DeltaLayerWriter::finish(key_end)` — the descriptor and the written
entries. -/
def DeltaLayerWriter.finish (w : DeltaLayerWriter) (keyEnd : Nat) :
    PersistentLayerDesc × List (Nat × Nat × Bool × Bytes) :=
  (⟨w.keyStart, keyEnd, w.lsnStart, w.lsnEnd⟩, w.entries)

/-- Failures of `write_to_disk`. -/
inductive WriteToDiskErr where
  /-- `self.end_lsn.get().unwrap()` on an Open layer. -/
  | endLsnUnset
  /-- `read_blob_into_buf` failed. -/
  | ioRead
  /-- `Value::des(&buf)?` failed. -/
  | deserialize
deriving DecidableEq

/-- One key's versions: `for (lsn, pos) in vec_map.as_slice()` — read the
blob, deserialize it to compute `will_init`, and hand the bytes to the
writer. -/
def writeKeyVersions (des : Bytes → Option Value) (file : Bytes) (key : Nat) :
    List (Nat × Nat) → DeltaLayerWriter → Except WriteToDiskErr DeltaLayerWriter
  | [], w => .ok w
  | (lsn, pos) :: rest, w =>
    match read_blob file pos with
    | none => .error .ioRead
    | some buf =>
      match des buf with
      | none => .error .deserialize
      | some v => writeKeyVersions des file key rest (w.put_value_bytes key lsn buf v.will_init)

/-- The write loop of `write_to_disk`: `for (key, vec_map) in
inner.index.iter()` — note that it iterates over the whole index. -/
def writeIndexEntries (des : Bytes → Option Value) (file : Bytes) :
    List (Nat × List (Nat × Nat)) → DeltaLayerWriter → Except WriteToDiskErr DeltaLayerWriter
  | [], w => .ok w
  | (key, vm) :: rest, w =>
    match writeKeyVersions des file key vm w with
    | .error e => .error e
    | .ok w' => writeIndexEntries des file rest w'

/-- `InMemoryLayer::write_to_disk(key_range)`: reads the frozen `end_lsn`,
counts the indexed keys that fall inside `key_range` (all keys when no
filter is given) and returns `none` when that count is zero; otherwise
creates a `DeltaLayerWriter` starting at `Key::MIN` over
`start_lsn..end_lsn`, writes every `(key, lsn, value)` of the index —
the write loop iterates `inner.index.iter()` without applying `key_range` —
and finishes the layer at `Key::MAX`. -/
def write_to_disk (des : Bytes → Option Value) (l : InMemoryLayer)
    (keyRange : Option (Nat × Nat)) :
    Except WriteToDiskErr (Option (PersistentLayerDesc × List (Nat × Nat × Bool × Bytes))) :=
  match l.endLsn with
  | none => .error .endLsnUnset
  | some endLsn =>
    let keyCount := match keyRange with
      | some r => (l.index.filter (fun kv => decide (r.1 ≤ kv.1) && decide (kv.1 < r.2))).length
      | none => l.index.length
    if keyCount = 0 then .ok none
    else
      match writeIndexEntries des l.file l.index
          (DeltaLayerWriter.new Key.MIN l.startLsn endLsn) with
      | .error e => .error e
      | .ok w => .ok (some (w.finish Key.MAX))

/-! ## GC-compaction per-key algorithm (`generate_key_retention`)

A history entry is a `(key, lsn, value)` triple; `full_history` is the
ascending-LSN history of a single key. -/

/-- One `(key, lsn, value)` triple. -/
abbrev HistoryEntry := Nat × Nat × Value

/-- `COMPACTION_DELTA_THRESHOLD`. -/
def COMPACTION_DELTA_THRESHOLD : Nat := 5

/-- `ValueReconstructState { img, records }` — the input to
`reconstruct_value`: an optional base image and the wal records to apply
(each modelled by `(lsn, will_init, payload)`), listed newest-first as the
code builds them. -/
structure ValueReconstructState where
  img : Option (Nat × Bytes)
  records : List (Nat × Bool × Bytes)
deriving DecidableEq

/-- `KeyLogAtLsn` is a plain list of `(lsn, value)` pairs;
`KeyHistoryRetention` is the result of bottom-most compaction for a single
key. -/
structure KeyHistoryRetention where
  below_horizon : List (Nat × List (Nat × Value))
  above_horizon : List (Nat × Value)
deriving DecidableEq

/-- Failures of `generate_key_retention`. -/
inductive GkrErr where
  /-- `anyhow!("invalid history, no base image")` — `IncompleteHistory`. -/
  | incompleteHistory
  /-- The two `anyhow!("invalid record, …")` branches inside image
  generation. -/
  | invalidRecord
  /-- `history.first().as_ref().unwrap()` on an empty replay history. -/
  | unreachableEmptyHistory
  /-- `lsn_split_points[i]` out of bounds. -/
  | splitIndexOutOfRange
  /-- `unreachable!("key retention is empty")`. -/
  | emptyRetention
deriving DecidableEq

/-- The body of the `while current_idx < lsn_split_points.len() && *lsn >
lsn_split_points[current_idx]` advance of step 1, with an explicit bound on
the remaining iterations (the loop advances at most
`splits.length - cur` times). -/
def advanceIdxAux (splits : List Nat) (lsn : Nat) : Nat → Nat → Nat
  | 0, cur => cur
  | fuel + 1, cur =>
    if h : cur < splits.length then
      if splits.get ⟨cur, h⟩ < lsn then advanceIdxAux splits lsn fuel (cur + 1) else cur
    else cur

/-- The `while` advance of step 1. -/
def advanceIdx (splits : List Nat) (lsn : Nat) (cur : Nat) : Nat :=
  advanceIdxAux splits lsn (splits.length - cur) cur

/-- Step 1 of `generate_key_retention`: walk `full_history` in order,
advancing `current_idx` for each entry and tagging the entry with the
bucket it is pushed into. -/
def placeEntries (splits : List Nat) : List HistoryEntry → Nat → List (Nat × HistoryEntry)
  | [], _ => []
  | e :: rest, cur =>
    let cur' := advanceIdx splits e.2.1 cur
    (cur', e) :: placeEntries splits rest cur'

/-- Step 1's `split_history`: `lsn_split_points.len() + 1` buckets, bucket
`i` holding (in order) the entries pushed at `current_idx = i`. -/
def split_history (splits : List Nat) (history : List HistoryEntry) :
    List (List HistoryEntry) :=
  let placed := placeEntries splits history 0
  (List.range (splits.length + 1)).map
    (fun i => (placed.filter (fun p => p.1 = i)).map Prod.snd)

/-- Step 2 of `generate_key_retention`: drop a record whose LSN equals the
previous record's LSN (the k-merge orders an image before a delta at the
same LSN, so the kept first record is the image). -/
def dedupAux : Option Nat → List HistoryEntry → List HistoryEntry
  | _, [] => []
  | prevLsn, e :: rest =>
    if prevLsn = some e.2.1 then dedupAux prevLsn rest
    else e :: dedupAux (some e.2.1) rest

/-- Step 2 applied to one bucket. -/
def dedup_split_for_lsn (l : List HistoryEntry) : List HistoryEntry :=
  dedupAux none l

/-- The backwards scan `for idx in (0..replay_history.len()).rev()` looking
for the last `will_init` entry: `some` of the suffix starting at that
entry, or `none` when there is no such entry. -/
def lastInitSuffix : List HistoryEntry → Option (List HistoryEntry)
  | [] => none
  | e :: rest =>
    match lastInitSuffix rest with
    | some s => some s
    | none => if e.2.2.will_init then some (e :: rest) else none

/-- "Only retain the items after the last image record": truncate the
replay history to start at its last `will_init` entry (unchanged when no
such entry exists). -/
def truncateReplay (l : List HistoryEntry) : List HistoryEntry :=
  (lastInitSuffix l).getD l

/-- The record-collection loops inside image generation: every entry must
be a `WalRecord` (an `Image` raises "invalid record"). -/
def collectWalRecords : List HistoryEntry → Except GkrErr (List (Nat × Bool × Bytes))
  | [] => .ok []
  | (_, lsn, Value.walRecord w d) :: rest =>
    match collectWalRecords rest with
    | .error e => .error e
    | .ok recs => .ok ((lsn, w, d) :: recs)
  | (_, _, Value.image _) :: _ => .error .invalidRecord

/-- The image-emission decision of step 3, verbatim from the source: always
for the first batch when there is no ancestor image; never for the last
(above-horizon) batch; otherwise when the records accumulated since the
last image reach the threshold. -/
def generate_image_flag (hasAncestor : Bool) (batchCnt i records thr : Nat) : Bool :=
  if i = 0 && !hasAncestor then true
  else if i = batchCnt - 1 then false
  else decide (thr ≤ records)

/-- The mutable state of step 3's loop: `replay_history`,
`records_since_last_image`, and the `retention` accumulator. -/
structure GkrState where
  replay : List HistoryEntry
  records : Nat
  retention : List (List (Nat × Value))
deriving DecidableEq

/-- One iteration of step 3 (`for (i, split_for_lsn) in
split_history.into_iter().enumerate()`): bump the record counter, decide
image emission, extend and truncate the replay history, fail with
`IncompleteHistory` when its first entry is not self-initializing, then
either reconstruct and emit an image at `lsn_split_points[i]` (resetting
the counter and the replay history) or keep the bucket's deltas verbatim. -/
def gkrStep (recon : Nat → Nat → ValueReconstructState → Bytes) (key : Nat)
    (splits : List Nat) (batchCnt : Nat) (hasAncestor : Bool) (thr : Nat)
    (i : Nat) (st : GkrState) (bucket : List HistoryEntry) :
    Except GkrErr GkrState :=
  let records := st.records + bucket.length
  let generateImage := generate_image_flag hasAncestor batchCnt i records thr
  let replay := truncateReplay (st.replay ++ bucket)
  let firstBad := match replay.head? with
    | some e => !e.2.2.will_init
    | none => false
  if firstBad then .error .incompleteHistory
  else if generateImage && decide (0 < records) then
    match replay with
    | [] => .error .unreachableEmptyHistory
    | (k0, l0, v0) :: rest =>
      let stateE : Except GkrErr ValueReconstructState :=
        match v0 with
        | .image b0 =>
          match collectWalRecords rest with
          | .error e => .error e
          | .ok recs => .ok ⟨some (l0, b0), recs.reverse⟩
        | .walRecord w d =>
          match collectWalRecords ((k0, l0, .walRecord w d) :: rest) with
          | .error e => .error e
          | .ok recs => .ok ⟨none, recs.reverse⟩
      match stateE with
      | .error e => .error e
      | .ok s =>
        match splits.get? i with
        | none => .error .splitIndexOutOfRange
        | some requestLsn =>
          let img := recon key requestLsn s
          .ok ⟨[(key, requestLsn, Value.image img)], 0,
               st.retention ++ [[(requestLsn, Value.image img)]]⟩
  else
    .ok ⟨replay, records, st.retention ++ [bucket.map (fun e => (e.2.1, e.2.2))]⟩

/-- Step 3's loop over the enumerated buckets. -/
def gkrLoop (recon : Nat → Nat → ValueReconstructState → Bytes) (key : Nat)
    (splits : List Nat) (batchCnt : Nat) (hasAncestor : Bool) (thr : Nat) :
    Nat → GkrState → List (List HistoryEntry) → Except GkrErr GkrState
  | _, st, [] => .ok st
  | i, st, b :: rest =>
    match gkrStep recon key splits batchCnt hasAncestor thr i st b with
    | .error e => .error e
    | .ok st' => gkrLoop recon key splits batchCnt hasAncestor thr (i + 1) st' rest

/-- The final `for (idx, logs) in retention.into_iter().enumerate()` loop:
pair each bucket's output with its split point, returning early at
`idx = lsn_split_points.len()` with the above-horizon logs. -/
def assembleRetention (splits : List Nat) :
    Nat → List (List (Nat × Value)) → List (Nat × List (Nat × Value)) →
    Except GkrErr KeyHistoryRetention
  | _, [], _ => .error .emptyRetention
  | idx, logs :: rest, acc =>
    if idx = splits.length then .ok ⟨acc, logs⟩
    else
      match splits.get? idx with
      | some s => assembleRetention splits (idx + 1) rest (acc ++ [(s, logs)])
      | none => .error .splitIndexOutOfRange

/-- `generate_key_retention(key, full_history, horizon,
retain_lsn_below_horizon, delta_threshold_cnt, base_img_from_ancestor)`.
The external `reconstruct_value` collaborator (spec §6) is the `recon`
parameter.  The `cfg!(debug_assertions)` pre-checks (sorted LSNs, image
before delta at equal LSNs, sorted retain LSNs below the horizon) are
stated as hypotheses of the theorems that need them rather than modelled as
failures. -/
def generate_key_retention (recon : Nat → Nat → ValueReconstructState → Bytes)
    (key : Nat) (full_history : List HistoryEntry) (horizon : Nat)
    (retain_lsn_below_horizon : List Nat) (delta_threshold_cnt : Nat)
    (base_img_from_ancestor : Option (Nat × Nat × Bytes)) :
    Except GkrErr KeyHistoryRetention :=
  let has_ancestor := base_img_from_ancestor.isSome
  let lsn_split_points := retain_lsn_below_horizon ++ [horizon]
  let buckets := (split_history lsn_split_points full_history).map dedup_split_for_lsn
  let batch_cnt := buckets.length
  let initReplay := match base_img_from_ancestor with
    | some (k, lsn, img) => [(k, lsn, Value.image img)]
    | none => []
  match gkrLoop recon key lsn_split_points batch_cnt has_ancestor
      delta_threshold_cnt 0 ⟨initReplay, 0, []⟩ buckets with
  | .error e => .error e
  | .ok st => assembleRetention lsn_split_points 0 st.retention []

/-! ### Specification-side characterizations for the retention theorems -/

/-- The bucket a given LSN belongs to: the position of the smallest (first)
split point that is `≥` the LSN, or the above-horizon bucket
(`splits.length`) when every split point is below it. -/
def bucketOfSpec (splits : List Nat) (lsn : Nat) : Nat :=
  match splits with
  | [] => 0
  | s :: rest => if lsn ≤ s then 0 else bucketOfSpec rest lsn + 1

/-- The first nonempty bucket. -/
def firstNonemptyBucket (buckets : List (List HistoryEntry)) :
    Option (List HistoryEntry) :=
  buckets.find? (fun b => !b.isEmpty)

/-- Does the first nonempty bucket lack any self-initializing entry?  This
is exactly the situation in which the replay history first becomes
nonempty with a non-self-initializing first entry: buckets before it leave
the replay history empty, and once a bucket supplies a `will_init` entry
the truncation keeps one at the front forever. -/
def firstNonemptyBucketLacksInit (buckets : List (List HistoryEntry)) : Bool :=
  match firstNonemptyBucket buckets with
  | some b => b.all (fun e => !e.2.2.will_init)
  | none => false

/-- The invariant shape of the replay history between iterations of step 3:
either empty, or headed by a self-initializing entry with everything after
it not self-initializing (which is what the truncation establishes). -/
def GoodReplay : List HistoryEntry → Prop
  | [] => True
  | e :: rest => e.2.2.will_init = true ∧ ∀ x ∈ rest, x.2.2.will_init = false

/-- The per-bucket image-emission flags, recomputed from the bucket sizes
alone: bucket `i` emits an image exactly when
`generate_image_flag … && 0 < records`, with the counter accumulating the
bucket sizes and resetting on emission. -/
def imageFlags (hasAncestor : Bool) (thr batchCnt : Nat) :
    Nat → Nat → List Nat → List Bool
  | _, _, [] => []
  | i, records0, n :: rest =>
    let records := records0 + n
    let emit := generate_image_flag hasAncestor batchCnt i records thr &&
      decide (0 < records)
    emit :: imageFlags hasAncestor thr batchCnt (i + 1)
      (if emit then 0 else records) rest

/-! ### L0→L1 compaction and GC-compaction cancellation
(`compaction.rs` `compact_level0` / `compact_level0_phase1` /
`compact_with_gc`)

The cooperative cancellation token is modelled as a function
`cancel : Nat → Bool` of a clock that ticks once per item consumed from
the merged key-value stream of the main loop (the pre-loop checks read
the clock at `0`).  A stream item is `(key, lsn, size, value)`: the
source walks the same sorted sequence twice, through `all_values_iter`
(values) and through the `all_keys_iter` lookahead (sizes), so the model
shares one list and keeps the lookahead's remaining suffix in the loop
state.  Rust panics (`unwrap` / `expect` on a `None` that the loop
invariant rules out) are surfaced as the distinguished `panicErr` error,
following the convention that an assertion failure is an error. -/

/-- `CompactionError` — the error type of the compaction routines:
`ShuttingDown` is the distinguished cancellation error, `Other` carries
an `anyhow` error (modelled by its message).  `panicErr` models a Rust
panic. -/
inductive CompactionError where
  | shuttingDown
  | other (msg : String)
  | panicErr
deriving DecidableEq

/-- A delta layer produced by L0→L1 compaction: its key range, LSN range
and entries. -/
structure L0Layer where
  keyStart : Nat
  keyEnd : Nat
  lsnStart : Nat
  lsnEnd : Nat
  entries : List (Nat × Nat × Value)
deriving DecidableEq

/-- The open `DeltaLayerWriter` of the phase-1 loop: start key, LSN
range, entries written so far and accumulated size (`writer.size()`). -/
structure L0Writer where
  keyStart : Nat
  lsnStart : Nat
  lsnEnd : Nat
  entries : List (Nat × Nat × Value)
  size : Nat
deriving DecidableEq

/-- The mutable state of the `compact_level0_phase1` main loop
(`new_layers`, `writer`, `key_values_total_size`, `dup_start_lsn`,
`dup_end_lsn`, `next_hole`, `keys`, `prev_key`, and the position of the
`all_keys_iter` lookahead).  `Lsn::INVALID` is `0`. -/
structure L0LoopState where
  newLayers : List L0Layer
  writer : Option L0Writer
  kvts : Nat
  dupStartLsn : Nat
  dupEndLsn : Nat
  nextHole : Nat
  keys : Nat
  prevKey : Option Nat
  keysIter : List (Nat × Nat × Nat × Value)
deriving DecidableEq

/-- The `for (next_key, next_lsn, next_size) in all_keys_iter.by_ref()`
lookahead of the boundary block: measures the size occupied by `key`,
stopping at the next key or when the accumulated size exceeds the target
file size, and computes the duplicate-layer LSN bounds.  Returns the
remaining lookahead suffix, `next_key_size`, `key_values_total_size`,
`dup_start_lsn` and `dup_end_lsn`. -/
def l0Lookahead (tfs lsnEnd key lsn : Nat) :
    List (Nat × Nat × Nat × Value) → Nat → Nat → Nat → Nat →
      List (Nat × Nat × Nat × Value) × Nat × Nat × Nat × Nat
  | [], nks, kvts, dsl, del => ([], nks, kvts, dsl, del)
  | (nkey, nlsn, nsize, _) :: rest, _, kvts, dsl, del =>
    if key ≠ nkey then
      if del ≠ 0 then (rest, nsize, kvts, del, lsnEnd)
      else (rest, nsize, kvts, dsl, del)
    else
      let kvts2 := kvts + nsize
      if tfs < kvts2 ∧ lsn ≠ nlsn then
        (rest, nsize, kvts2, if del ≠ 0 then del else lsn, nlsn)
      else l0Lookahead tfs lsnEnd key lsn rest nsize kvts2 dsl del

/-- The key-boundary block of the phase-1 loop (`if !same_key || lsn ==
dup_end_lsn`): run the lookahead, fix up the duplicate bounds when the
lookahead reached the last key, and flush the open writer when the next
key would overflow it, the layer is a duplicates layer, or the key
crosses the next hole. -/
def l0Boundary (tfs lsnEnd : Nat) (holes : List (Nat × Nat))
    (key lsn : Nat) (st : L0LoopState) : Except CompactionError L0LoopState :=
  if ¬ st.prevKey = some key ∨ lsn = st.dupEndLsn then
    let isDup := st.dupEndLsn ≠ 0
    let del0 := if st.prevKey = some key then st.dupEndLsn else 0
    let la := l0Lookahead tfs lsnEnd key lsn st.keysIter 0 st.kvts 0 del0
    let nks := la.2.1
    let kvts1 := la.2.2.1
    let dsl1 := la.2.2.2.1
    let del1 := la.2.2.2.2
    let dsl2 := if del1 ≠ 0 ∧ dsl1 = 0 then del1 else dsl1
    let del2 := if del1 ≠ 0 ∧ dsl1 = 0 then lsnEnd else del1
    match st.writer with
    | some w =>
      let containsHole := st.nextHole < holes.length ∧
        (holes.getD st.nextHole (0, 0)).2 ≤ key
      if isDup ∨ del2 ≠ 0 ∨ tfs < w.size + kvts1 ∨ containsHole then
        match st.prevKey with
        | none => .error .panicErr
        | some pk =>
          .ok { st with
            newLayers := st.newLayers ++
              [⟨w.keyStart, pk + 1, w.lsnStart, w.lsnEnd, w.entries⟩],
            writer := none,
            nextHole := st.nextHole + (if containsHole then 1 else 0),
            kvts := nks, dupStartLsn := dsl2, dupEndLsn := del2,
            keysIter := la.1 }
      else
        .ok { st with
          kvts := nks, dupStartLsn := dsl2, dupEndLsn := del2,
          keysIter := la.1 }
    | none =>
      .ok { st with
        kvts := nks, dupStartLsn := dsl2, dupEndLsn := del2,
        keysIter := la.1 }
  else .ok st

/-- One iteration of the phase-1 main loop: count the key and check
cancellation every 32768 keys, run the boundary block, then (for a
non-disposable key) create the writer if needed — checking cancellation
at each writer creation and resetting the `keys` counter — and put the
value. -/
def l0Step (cancel : Nat → Bool) (tfs lsnStart lsnEnd : Nat)
    (holes : List (Nat × Nat)) (disposable : Nat → Bool)
    (item : Nat × Nat × Nat × Value) (t : Nat) (st : L0LoopState) :
    Except CompactionError L0LoopState :=
  let key := item.1
  let lsn := item.2.1
  let ksize := item.2.2.1
  let value := item.2.2.2
  if (st.keys + 1) % 32768 = 0 ∧ cancel t = true then .error .shuttingDown
  else
    match l0Boundary tfs lsnEnd holes key lsn { st with keys := st.keys + 1 } with
    | .error e => .error e
    | .ok st1 =>
      if disposable key = true then .ok { st1 with prevKey := some key }
      else
        match st1.writer with
        | some w =>
          .ok { st1 with
            writer := some { w with
              entries := w.entries ++ [(key, lsn, value)],
              size := w.size + ksize },
            prevKey := some key }
        | none =>
          if cancel t = true then .error .shuttingDown
          else
            .ok { st1 with
              writer := some ⟨key,
                (if st1.dupEndLsn ≠ 0 then st1.dupStartLsn else lsnStart),
                (if st1.dupEndLsn ≠ 0 then st1.dupEndLsn else lsnEnd),
                [(key, lsn, value)], ksize⟩,
              keys := 0, prevKey := some key }

/-- The end of the phase-1 loop: finish the still-open writer (at
`prev_key.unwrap().next()`) if any. -/
def l0Finish (st : L0LoopState) : Except CompactionError (List L0Layer) :=
  match st.writer with
  | none => .ok st.newLayers
  | some w =>
    match st.prevKey with
    | none => .error .panicErr
    | some pk =>
      .ok (st.newLayers ++ [⟨w.keyStart, pk + 1, w.lsnStart, w.lsnEnd, w.entries⟩])

/-- The phase-1 main loop over the merged key-value stream. -/
def l0Loop (cancel : Nat → Bool) (tfs lsnStart lsnEnd : Nat)
    (holes : List (Nat × Nat)) (disposable : Nat → Bool) :
    List (Nat × Nat × Nat × Value) → Nat → L0LoopState →
      Except CompactionError (List L0Layer)
  | [], _, st => l0Finish st
  | item :: rest, t, st =>
    match l0Step cancel tfs lsnStart lsnEnd holes disposable item t st with
    | .error e => .error e
    | .ok st' => l0Loop cancel tfs lsnStart lsnEnd holes disposable rest (t + 1) st'

/-- The result of `compact_level0_phase1`: the produced layers and the
number of input L0 deltas selected for compaction. -/
structure CompactLevel0Phase1Result where
  new_layers : List L0Layer
  deltas_to_compact : Nat
deriving DecidableEq

/-- `compact_level0_phase1` — too few deltas returns the empty default;
otherwise the input layers are loaded (checking cancellation per layer),
the holes are computed, cancellation is checked once more (all pre-loop
checks read the clock at `0`), and the main loop runs.  The layer
selection, hole ranking (which consults the layer map's image coverage)
and the stream extraction are inputs to the model: `numDeltas` input L0
layers, `holes`, and the merged sorted `stream`. -/
def compact_level0_phase1 (cancel : Nat → Bool) (numDeltas threshold : Nat)
    (tfs lsnStart lsnEnd : Nat) (holes : List (Nat × Nat))
    (disposable : Nat → Bool) (stream : List (Nat × Nat × Nat × Value)) :
    Except CompactionError CompactLevel0Phase1Result :=
  if numDeltas = 0 ∨ numDeltas < threshold then .ok ⟨[], 0⟩
  else if cancel 0 = true then .error .shuttingDown
  else
    match l0Loop cancel tfs lsnStart lsnEnd holes disposable stream 0
        ⟨[], none, 0, 0, 0, 0, 0, none, stream⟩ with
    | .error e => .error e
    | .ok layers => .ok ⟨layers, numDeltas⟩

/-- `compact_level0` — run phase 1 and, unless there is nothing to do,
commit the produced layers to the layer map via `finish_compact_batch`.
The committed layers are the `.ok` payload: an error commits nothing. -/
def compact_level0 (cancel : Nat → Bool) (numDeltas threshold : Nat)
    (tfs lsnStart lsnEnd : Nat) (holes : List (Nat × Nat))
    (disposable : Nat → Bool) (stream : List (Nat × Nat × Nat × Value)) :
    Except CompactionError (List L0Layer × Bool) :=
  match compact_level0_phase1 cancel numDeltas threshold tfs lsnStart lsnEnd
      holes disposable stream with
  | .error e => .error e
  | .ok r =>
    if r.new_layers = [] ∧ r.deltas_to_compact = 0 then .ok ([], true)
    else .ok (r.new_layers, true)

/-- The main loop of `compact_with_gc` over the merged `(key, lsn,
value)` stream: per entry it first checks cancellation — returning the
generic `anyhow!("cancelled")` error, not `ShuttingDown` — then
accumulates values of the current key, and on a key change runs
`generate_key_retention` for the finished key (with the ancestor image
supplied by `get_ancestor_image`, modelled as the function `base`),
collecting the retention outputs (`pipe_to` / `flush_deltas`).  The
trailing flush after the loop `expect`s at least one key. -/
def gcLoop (cancel : Nat → Bool)
    (recon : Nat → Nat → ValueReconstructState → Bytes) (gc_cutoff : Nat)
    (retains : List Nat) (base : Nat → Option (Nat × Nat × Bytes)) :
    List (Nat × Nat × Value) → Nat → Option Nat → List HistoryEntry →
      List (Nat × KeyHistoryRetention) →
      Except CompactionError (List (Nat × KeyHistoryRetention))
  | [], _, lastKey, acc, out =>
    match lastKey with
    | none => .error .panicErr
    | some lk =>
      match generate_key_retention recon lk acc gc_cutoff retains
          COMPACTION_DELTA_THRESHOLD (base lk) with
      | .error _ => .error (.other "key retention")
      | .ok r => .ok (out ++ [(lk, r)])
  | (key, lsn, val) :: rest, t, lastKey, acc, out =>
    if cancel t = true then .error (.other "cancelled")
    else
      match lastKey with
      | none =>
        gcLoop cancel recon gc_cutoff retains base rest (t + 1) (some key)
          (acc ++ [(key, lsn, val)]) out
      | some lk =>
        if lk = key then
          gcLoop cancel recon gc_cutoff retains base rest (t + 1) (some key)
            (acc ++ [(key, lsn, val)]) out
        else
          match generate_key_retention recon lk acc gc_cutoff retains
              COMPACTION_DELTA_THRESHOLD (base lk) with
          | .error _ => .error (.other "key retention")
          | .ok r =>
            gcLoop cancel recon gc_cutoff retains base rest (t + 1) (some key)
              [(key, lsn, val)] (out ++ [(lk, r)])

/-- `compact_with_gc` — acquire the gc lock in a `select!` against the
cancellation token (returning `anyhow!("cancelled")` when cancelled,
clock `0`), then run the GC-compaction loop.  The `.ok` payload is what
`finish_gc_compaction` commits to the layer map: an error commits
nothing. -/
def compact_with_gc (cancel : Nat → Bool)
    (recon : Nat → Nat → ValueReconstructState → Bytes) (gc_cutoff : Nat)
    (retains : List Nat) (base : Nat → Option (Nat × Nat × Bytes))
    (stream : List (Nat × Nat × Value)) :
    Except CompactionError (List (Nat × KeyHistoryRetention)) :=
  if cancel 0 = true then .error (.other "cancelled")
  else gcLoop cancel recon gc_cutoff retains base stream 1 none [] []


/-! ## Theorems -/

/-- C3: the claim says that during post-split shard-ancestor cleanup every
inherited layer with more than half of its pages already local is skipped
(neither dropped nor selected for rewrite).  The code disagrees with its own
log message "layer is already mostly local (…), not rewriting": the
mostly-local branch lacks a `continue`, so such a layer falls through the
remaining checks and IS selected for rewrite.  Witnessed here by an inherited
image layer with 6 of 10 pages local (more than half), outside the PITR
window, from an old generation, with rewrite budget left: the scan classifies
it as `rewrite`. -/
theorem compact_shard_ancestors_rewrites_mostly_local_layer :
    compact_shard_ancestors_decision 10 true
      { shardCountMatches := false, localPageCount := 6, rawPageCount := 10,
        lsnRangeEnd := 5, isDelta := false, generationMatchesCurrent := false }
      = .rewrite ∧ 10 / 2 < 6 := by
  constructor
  · rfl
  · decide

/-- C8: the claim says every filename `ephemeral-<n>` with `n : u64` — the
form produced by `EphemeralFile::create`, whose `NEXT_FILENAME` disambiguator
is an `AtomicU64` — is recognized by `is_ephemeral_file`.  But
`is_ephemeral_file` parses the suffix with `rest.parse::<u32>()`, so the
counter value `2^32 = 4294967296` (a perfectly good `u64`) produces a
filename that is NOT recognized, while `2^32 - 1` still is. -/
theorem is_ephemeral_file_rejects_u64_counter :
    is_ephemeral_file (ephemeral_file_name 4294967296) = false ∧
    is_ephemeral_file (ephemeral_file_name 4294967295) = true := by decide

theorem vecMapInsert_fst (vm : List (Nat × Nat)) (lsn : Nat) (off : Nat) :
    (vecMapInsert vm lsn off).1 = vecGet vm lsn := by
  induction vm with
  | nil => simp [vecMapInsert, vecGet]
  | cons hd tl ih =>
    obtain ⟨l, o⟩ := hd
    rcases hvm : vecMapInsert tl lsn off with ⟨old, rest'⟩
    rw [hvm] at ih
    by_cases h1 : lsn = l
    · simp [vecMapInsert, h1, vecGet]
    · by_cases h2 : lsn < l
      · simp [vecMapInsert, h1, h2, vecGet]
      · simp [vecMapInsert, h1, h2, vecGet, hvm, ih]

theorem vecGet_vecMapInsert_self (vm : List (Nat × Nat)) (lsn : Nat) (off : Nat) :
    vecGet (vecMapInsert vm lsn off).2 lsn = some off := by
  induction vm with
  | nil => simp [vecMapInsert, vecGet]
  | cons hd tl ih =>
    obtain ⟨l, o⟩ := hd
    rcases hvm : vecMapInsert tl lsn off with ⟨old, rest'⟩
    rw [hvm] at ih
    by_cases h1 : lsn = l
    · simp [vecMapInsert, h1, vecGet]
    · by_cases h2 : lsn < l
      · simp [vecMapInsert, h1, h2, vecGet]
      · simp [vecMapInsert, h1, h2, vecGet, hvm, ih]

theorem vecGet_vecMapInsert_other (vm : List (Nat × Nat)) (lsn : Nat) (off : Nat)
    (lsn' : Nat) (hne : lsn' ≠ lsn) :
    vecGet (vecMapInsert vm lsn off).2 lsn' = vecGet vm lsn' := by
  induction vm with
  | nil => simp [vecMapInsert, vecGet, hne]
  | cons hd tl ih =>
    obtain ⟨l, o⟩ := hd
    rcases hvm : vecMapInsert tl lsn off with ⟨old, rest'⟩
    rw [hvm] at ih
    by_cases h1 : lsn = l
    · subst h1
      by_cases h3 : lsn' < lsn
      · simp [vecMapInsert, vecGet, hne, h3]
      · simp [vecMapInsert, vecGet, hne, h3]
    · by_cases h2 : lsn < l
      · by_cases h3 : lsn' = l
        · subst h3
          have h6 : ¬ lsn' < lsn := by omega
          simp [vecMapInsert, h1, h2, vecGet, hne, h6]
        · by_cases h4 : lsn' < lsn
          · have h5 : lsn' < l := by omega
            simp [vecMapInsert, h1, h2, vecGet, hne, h3, h4, h5]
          · by_cases h5 : lsn' < l
            · simp [vecMapInsert, h1, h2, vecGet, hne, h3, h4, h5]
            · simp [vecMapInsert, h1, h2, vecGet, hne, h3, h4, h5]
      · by_cases h3 : lsn' = l
        · subst h3
          simp [vecMapInsert, h1, h2, vecGet]
        · by_cases h5 : lsn' < l
          · simp [vecMapInsert, h1, h2, vecGet, h3, h5]
          · simp [vecMapInsert, h1, h2, vecGet, h3, h5, hvm, ih]


theorem indexInsert_fst (ix : List (Nat × List (Nat × Nat))) (key lsn off : Nat) :
    (indexInsert ix key lsn off).1 = indexLookup ix key lsn := by
  induction ix with
  | nil => simp [indexInsert, indexLookup, indexGet]
  | cons hd tl ih =>
    obtain ⟨k, vm⟩ := hd
    rcases hvm : indexInsert tl key lsn off with ⟨old, rest'⟩
    rw [hvm] at ih
    by_cases h1 : key = k
    · simp [indexInsert, h1, indexLookup, indexGet, vecMapInsert_fst]
    · by_cases h2 : key < k
      · simp [indexInsert, h1, h2, indexLookup, indexGet]
      · simp [indexInsert, h1, h2, indexLookup, indexGet, hvm, ih]

theorem indexLookup_indexInsert_self (ix : List (Nat × List (Nat × Nat))) (key lsn off : Nat) :
    indexLookup (indexInsert ix key lsn off).2 key lsn = some off := by
  induction ix with
  | nil => simp [indexInsert, indexLookup, indexGet, vecGet]
  | cons hd tl ih =>
    obtain ⟨k, vm⟩ := hd
    rcases hvm : indexInsert tl key lsn off with ⟨old, rest'⟩
    rw [hvm] at ih
    by_cases h1 : key = k
    · simp [indexInsert, h1, indexLookup, indexGet, vecGet_vecMapInsert_self]
    · by_cases h2 : key < k
      · simp [indexInsert, h1, h2, indexLookup, indexGet, vecGet]
      · have ih' : indexLookup rest' key lsn = some off := by simpa using ih
        simp only [indexInsert, h1, h2, if_false, hvm]
        simp only [indexLookup, indexGet, h1, h2, if_false]
        simpa [indexLookup] using ih'

theorem indexLookup_indexInsert_other (ix : List (Nat × List (Nat × Nat))) (key lsn off : Nat)
    (key' lsn' : Nat) (hne : (key', lsn') ≠ (key, lsn)) :
    indexLookup (indexInsert ix key lsn off).2 key' lsn' = indexLookup ix key' lsn' := by
  induction ix with
  | nil =>
    by_cases hk : key' = key
    · subst hk
      have hl : lsn' ≠ lsn := by simpa using hne
      simp [indexInsert, indexLookup, indexGet, vecGet, hl]
    · by_cases hk2 : key' < key
      · simp [indexInsert, indexLookup, indexGet, hk, hk2]
      · simp [indexInsert, indexLookup, indexGet, hk, hk2]
  | cons hd tl ih =>
    obtain ⟨k, vm⟩ := hd
    rcases hvm : indexInsert tl key lsn off with ⟨old, rest'⟩
    rw [hvm] at ih
    by_cases h1 : key = k
    · subst h1
      by_cases hk : key' = key
      · subst hk
        have hl : lsn' ≠ lsn := by simpa using hne
        simp [indexInsert, indexLookup, indexGet, vecGet_vecMapInsert_other _ _ _ _ hl]
      · simp [indexInsert, indexLookup, indexGet, hk]
    · by_cases h2 : key < k
      · by_cases hk : key' = k
        · subst hk
          have h6 : ¬ key' < key := by omega
          have h7 : key' ≠ key := by omega
          simp [indexInsert, indexLookup, indexGet, h1, h2, h6, h7]
        · by_cases h4 : key' = key
          · subst h4
            have hl : lsn' ≠ lsn := by simpa using hne
            have h8 : key' < k := h2
            simp [indexInsert, indexLookup, indexGet, h1, h2, hk, h8, vecGet, hl]
          · by_cases h5 : key' < key
            · have h9 : key' < k := by omega
              simp [indexInsert, indexLookup, indexGet, h1, h2, hk, h4, h5, h9]
            · by_cases h9 : key' < k
              · simp [indexInsert, indexLookup, indexGet, h1, h2, hk, h4, h5, h9]
              · simp [indexInsert, indexLookup, indexGet, h1, h2, hk, h4, h5, h9]
      · by_cases hk : key' = k
        · subst hk
          simp [indexInsert, indexLookup, indexGet, h1, h2]
        · by_cases h5 : key' < k
          · simp [indexInsert, indexLookup, indexGet, hk, h5, h1, h2]
          · have ih' : indexLookup rest' key' lsn' = indexLookup tl key' lsn' := by
              simpa using ih
            simp only [indexInsert, h1, h2, if_false, hvm]
            simp only [indexLookup, indexGet, hk, h5, if_false]
            simpa [indexLookup] using ih'



theorem applyOffsets_lookup_untouched (base : Nat) (obs : List SerializedBatchOffset)
    (ix : List (Nat × List (Nat × Nat))) (ws : List (Nat × Nat)) (k l : Nat)
    (h : ∀ ob ∈ obs, (ob.key, ob.lsn) ≠ (k, l)) :
    indexLookup (applyOffsets base obs ix ws).1 k l = indexLookup ix k l := by
  induction obs generalizing ix ws with
  | nil => simp [applyOffsets]
  | cons o rest ih =>
    have ho := h o (by simp)
    simp only [applyOffsets]
    rw [ih _ _ (fun x hx => h x (by simp [hx]))]
    exact indexLookup_indexInsert_other ix o.key o.lsn _ k l (Ne.symm ho)

theorem applyOffsets_lookup_hit (base : Nat) (obs : List SerializedBatchOffset)
    (hnd : obs.Pairwise (fun a c => (a.key, a.lsn) ≠ (c.key, c.lsn))) :
    ∀ ix ws, ∀ ob ∈ obs,
      indexLookup (applyOffsets base obs ix ws).1 ob.key ob.lsn = some (base + ob.offset) := by
  induction obs with
  | nil => simp
  | cons o rest ih =>
    intro ix ws ob hob
    obtain ⟨hhd, htl⟩ := List.pairwise_cons.mp hnd
    rcases List.mem_cons.mp hob with h | h
    · subst h
      simp only [applyOffsets]
      rw [applyOffsets_lookup_untouched _ _ _ _ _ _ (fun x hx => (hhd x hx).symm)]
      exact indexLookup_indexInsert_self ix ob.key ob.lsn (base + ob.offset)
    · simp only [applyOffsets]
      exact ih htl _ _ ob h

theorem applyOffsets_warns_untouched (base : Nat) (obs : List SerializedBatchOffset)
    (p : Nat × Nat) (h : ∀ ob ∈ obs, (ob.key, ob.lsn) ≠ p) :
    ∀ ix ws, (p ∈ (applyOffsets base obs ix ws).2 ↔ p ∈ ws) := by
  induction obs with
  | nil => simp [applyOffsets]
  | cons o rest ih =>
    intro ix ws
    simp only [applyOffsets]
    rw [ih (fun x hx => h x (by simp [hx])) _ _]
    by_cases ho : (indexInsert ix o.key o.lsn (base + o.offset)).1.isSome
    · have hp : p ≠ (o.key, o.lsn) := (h o (by simp)).symm
      simp [ho, hp]
    · simp [ho]

theorem applyOffsets_warned (base : Nat) (obs : List SerializedBatchOffset)
    (hnd : obs.Pairwise (fun a c => (a.key, a.lsn) ≠ (c.key, c.lsn))) :
    ∀ ix ws, ∀ ob ∈ obs,
      ((ob.key, ob.lsn) ∈ (applyOffsets base obs ix ws).2 ↔
        (ob.key, ob.lsn) ∈ ws ∨ (indexLookup ix ob.key ob.lsn).isSome = true) := by
  induction obs with
  | nil => simp
  | cons o rest ih =>
    intro ix ws ob hob
    obtain ⟨hhd, htl⟩ := List.pairwise_cons.mp hnd
    rcases List.mem_cons.mp hob with h | h
    · subst h
      simp only [applyOffsets]
      rw [applyOffsets_warns_untouched _ _ _ (fun x hx => (hhd x hx).symm) _ _]
      rw [indexInsert_fst]
      by_cases ho : (indexLookup ix ob.key ob.lsn).isSome
      · simp [ho]
      · simp [ho]
    · simp only [applyOffsets]
      rw [ih htl _ _ ob h]
      have hne : (ob.key, ob.lsn) ≠ (o.key, o.lsn) := (hhd ob h).symm
      rw [indexLookup_indexInsert_other ix o.key o.lsn _ ob.key ob.lsn hne]
      by_cases ho : (indexInsert ix o.key o.lsn (base + o.offset)).1.isSome
      · simp [ho, hne]
      · simp [ho]


theorem writeKeyVersions_frame (des : Bytes → Option Value) (file : Bytes) (key : Nat)
    (vm : List (Nat × Nat)) :
    ∀ w w', writeKeyVersions des file key vm w = .ok w' →
      w'.keyStart = w.keyStart ∧ w'.lsnStart = w.lsnStart ∧ w'.lsnEnd = w.lsnEnd := by
  induction vm with
  | nil =>
    intro w w' h
    simp only [writeKeyVersions] at h
    cases h
    exact ⟨rfl, rfl, rfl⟩
  | cons p rest ih =>
    intro w w' h
    obtain ⟨lsn, pos⟩ := p
    simp only [writeKeyVersions] at h
    cases hr : read_blob file pos with
    | none => rw [hr] at h; cases h
    | some buf =>
      rw [hr] at h
      dsimp only at h
      cases hd : des buf with
      | none => rw [hd] at h; cases h
      | some v =>
        rw [hd] at h
        dsimp only at h
        have := ih _ _ h
        simpa [DeltaLayerWriter.put_value_bytes] using this

theorem writeIndexEntries_frame (des : Bytes → Option Value) (file : Bytes)
    (ix : List (Nat × List (Nat × Nat))) :
    ∀ w w', writeIndexEntries des file ix w = .ok w' →
      w'.keyStart = w.keyStart ∧ w'.lsnStart = w.lsnStart ∧ w'.lsnEnd = w.lsnEnd := by
  induction ix with
  | nil =>
    intro w w' h
    simp only [writeIndexEntries] at h
    cases h
    exact ⟨rfl, rfl, rfl⟩
  | cons kv rest ih =>
    intro w w' h
    obtain ⟨key, vm⟩ := kv
    simp only [writeIndexEntries] at h
    cases hk : writeKeyVersions des file key vm w with
    | error e => rw [hk] at h; cases h
    | ok w1 =>
      rw [hk] at h
      obtain ⟨e1, e2, e3⟩ := writeKeyVersions_frame des file key vm w w1 hk
      obtain ⟨f1, f2, f3⟩ := ih w1 w' h
      exact ⟨f1.trans e1, f2.trans e2, f3.trans e3⟩

/-- C9: every delta layer produced by `write_to_disk`, also when a
`key_range` filter is supplied, carries a descriptor covering the full key
range from `Key::MIN` to `Key::MAX` (the writer is created at `Key::MIN`
and finished at `Key::MAX`); only its LSN range — `start_lsn` up to the
frozen `end_lsn` — varies between layers. -/
theorem write_to_disk_desc_full_key_range (des : Bytes → Option Value)
    (l : InMemoryLayer) (keyRange : Option (Nat × Nat))
    (desc : PersistentLayerDesc) (entries : List (Nat × Nat × Bool × Bytes))
    (hok : write_to_disk des l keyRange = .ok (some (desc, entries))) :
    desc.keyStart = Key.MIN ∧ desc.keyEnd = Key.MAX ∧
    desc.lsnStart = l.startLsn ∧ l.endLsn = some desc.lsnEnd := by
  unfold write_to_disk at hok
  cases he : l.endLsn with
  | none => rw [he] at hok; cases hok
  | some endLsn =>
    rw [he] at hok
    simp only at hok
    split at hok
    · cases hok
    · cases hw : writeIndexEntries des l.file l.index
          (DeltaLayerWriter.new Key.MIN l.startLsn endLsn) with
      | error e => rw [hw] at hok; cases hok
      | ok w =>
        rw [hw] at hok
        obtain ⟨e1, e2, e3⟩ := writeIndexEntries_frame des l.file l.index _ _ hw
        simp only [DeltaLayerWriter.finish] at hok
        cases hok
        simp_all [DeltaLayerWriter.new]


/-- C4: if `freeze(E)` is called on an Open in-memory layer with
`start_lsn < E` and completes, then `end_lsn` is recorded as `E` and can
never be recorded again (a second `freeze` always fails on the once-set
`end_lsn`), afterwards every indexed LSN is strictly less than `E`, and
every subsequent `put_batch` on that layer fails with `Writable`. -/
theorem freeze_spec (l : InMemoryLayer) (E : Nat) (l' : InMemoryLayer)
    (hopen : l.endLsn = none) (hlt : l.startLsn < E) (hok : freeze l E = .ok l') :
    l'.endLsn = some E ∧
    (∀ E2 l2, freeze l' E2 ≠ .ok l2) ∧
    allIndexedLsnsBelow l'.index E = true ∧
    (∀ b, put_batch l' b = .error .writable) := by
  unfold freeze at hok
  rw [hopen] at hok
  simp only [hlt, decide_True, Bool.not_true, Bool.false_eq_true, if_false] at hok
  split at hok
  · cases hok
    refine ⟨rfl, ?_, by assumption, ?_⟩
    · intro E2 l2 h
      unfold freeze at h
      split at h
      · cases h
      · simp at h
    · intro b
      simp [put_batch]
  · cases hok

/-- C5: for every batch accepted by `put_batch` on an Open layer whose
offset entries address pairwise-distinct `(key, lsn)` pairs, the raw buffer
is appended to the underlying file at base offset `B` (the file length
before the write), and for every `(key, lsn, rel_off)` tuple of the batch
the index under `key` afterwards maps `lsn` to `B + rel_off`; whenever an
entry for that exact `(key, lsn)` already existed in the index it is
overwritten, a warning is emitted for exactly those pairs, and `put_batch`
still succeeds. -/
theorem put_batch_spec (l : InMemoryLayer) (b : SerializedBatch)
    (hopen : l.endLsn = none)
    (hnd : b.offsets.Pairwise (fun a c => (a.key, a.lsn) ≠ (c.key, c.lsn))) :
    ∃ l' warns, put_batch l b = .ok (l', warns) ∧
      l'.file = l.file ++ b.raw ∧
      l'.startLsn = l.startLsn ∧ l'.endLsn = none ∧
      (∀ ob ∈ b.offsets,
        indexLookup l'.index ob.key ob.lsn = some (l.file.length + ob.offset)) ∧
      (∀ ob ∈ b.offsets,
        ((ob.key, ob.lsn) ∈ warns ↔ (indexLookup l.index ob.key ob.lsn).isSome = true)) := by
  have hpb : put_batch l b =
      .ok ((⟨l.startLsn, l.endLsn,
             (applyOffsets l.file.length b.offsets l.index []).1,
             l.file ++ b.raw⟩ : InMemoryLayer),
           (applyOffsets l.file.length b.offsets l.index []).2) := by
    unfold put_batch
    rw [hopen]
    rfl
  refine ⟨_, _, hpb, rfl, rfl, hopen, ?_, ?_⟩
  · intro ob hob
    exact applyOffsets_lookup_hit l.file.length b.offsets hnd l.index [] ob hob
  · intro ob hob
    have := applyOffsets_warned l.file.length b.offsets hnd l.index [] ob hob
    simpa using this

/-- C1: the claim says `write_to_disk(key_range)` produces a delta layer
whose entries are exactly the indexed `(key, lsn, value)` triples whose key
lies in `key_range`.  The function's own doc comment agrees ("the delta
layer will only contain the key range the user specifies"), but the code
only uses `key_range` to compute `key_count` for the `None` early-return;
its write loop iterates `inner.index.iter()` unfiltered.  Concretely: a
frozen layer holding keys `1` and `2`, flushed with `key_range = 1..2`
(which contains only key `1`), produces a layer that also contains the
entry for key `2`. -/
theorem write_to_disk_ignores_key_range_filter :
    ∃ l warns, put_batch (InMemoryLayer.create 5)
        (SerializedBatch.from_values trialSer
          [(1, 10, 2, Value.image [3]), (2, 15, 2, Value.walRecord false [4])])
        = .ok (l, warns) ∧
    ∃ lf, freeze l 30 = .ok lf ∧
    ∃ desc entries, write_to_disk trialDes lf (some (1, 2)) = .ok (some (desc, entries)) ∧
      (2, 15, false, trialSer (Value.walRecord false [4])) ∈ entries ∧
      ¬ (1 ≤ (2 : Nat) ∧ (2 : Nat) < 2) := by
  refine ⟨_, _, rfl, _, rfl, _, _, rfl, ?_, by omega⟩
  decide


theorem freeze_spec_witness :
    ((InMemoryLayer.create 10).endLsn = none ∧ (InMemoryLayer.create 10).startLsn < 20) ∧
    ((⟨10, some 20, [], []⟩ : InMemoryLayer).endLsn = some 20 ∧
      (∀ E2 l2, freeze (⟨10, some 20, [], []⟩ : InMemoryLayer) E2 ≠ .ok l2) ∧
      allIndexedLsnsBelow (⟨10, some 20, [], []⟩ : InMemoryLayer).index 20 = true ∧
      (∀ b, put_batch (⟨10, some 20, [], []⟩ : InMemoryLayer) b = .error .writable)) :=
  ⟨⟨rfl, by decide⟩,
    freeze_spec (InMemoryLayer.create 10) 20 ⟨10, some 20, [], []⟩ rfl (by decide) rfl⟩

theorem put_batch_spec_witness :
    ((⟨0, none, [(1, [(10, 0)])], [9, 9]⟩ : InMemoryLayer).endLsn = none ∧
      ([⟨1, 10, 0⟩, ⟨2, 20, 1⟩] : List SerializedBatchOffset).Pairwise
        (fun a c => (a.key, a.lsn) ≠ (c.key, c.lsn))) ∧
    (∃ l' warns,
      put_batch (⟨0, none, [(1, [(10, 0)])], [9, 9]⟩ : InMemoryLayer)
          (⟨[7, 8], [⟨1, 10, 0⟩, ⟨2, 20, 1⟩], 20⟩ : SerializedBatch) = .ok (l', warns) ∧
      l'.file = (⟨0, none, [(1, [(10, 0)])], [9, 9]⟩ : InMemoryLayer).file ++
        (⟨[7, 8], [⟨1, 10, 0⟩, ⟨2, 20, 1⟩], 20⟩ : SerializedBatch).raw ∧
      l'.startLsn = (⟨0, none, [(1, [(10, 0)])], [9, 9]⟩ : InMemoryLayer).startLsn ∧
      l'.endLsn = none ∧
      (∀ ob ∈ (⟨[7, 8], [⟨1, 10, 0⟩, ⟨2, 20, 1⟩], 20⟩ : SerializedBatch).offsets,
        indexLookup l'.index ob.key ob.lsn =
          some ((⟨0, none, [(1, [(10, 0)])], [9, 9]⟩ : InMemoryLayer).file.length + ob.offset)) ∧
      (∀ ob ∈ (⟨[7, 8], [⟨1, 10, 0⟩, ⟨2, 20, 1⟩], 20⟩ : SerializedBatch).offsets,
        ((ob.key, ob.lsn) ∈ warns ↔
          (indexLookup (⟨0, none, [(1, [(10, 0)])], [9, 9]⟩ : InMemoryLayer).index
            ob.key ob.lsn).isSome = true))) :=
  ⟨⟨rfl, by decide⟩,
    put_batch_spec (⟨0, none, [(1, [(10, 0)])], [9, 9]⟩ : InMemoryLayer)
      (⟨[7, 8], [⟨1, 10, 0⟩, ⟨2, 20, 1⟩], 20⟩ : SerializedBatch) rfl (by decide)⟩

theorem write_to_disk_desc_full_key_range_witness :
    write_to_disk trialDes (⟨10, some 20, [(1, [(10, 0)])], [2, 0, 5]⟩ : InMemoryLayer) none =
      .ok (some (⟨Key.MIN, Key.MAX, 10, 20⟩, [(1, 10, true, [0, 5])])) ∧
    ((⟨Key.MIN, Key.MAX, 10, 20⟩ : PersistentLayerDesc).keyStart = Key.MIN ∧
      (⟨Key.MIN, Key.MAX, 10, 20⟩ : PersistentLayerDesc).keyEnd = Key.MAX ∧
      (⟨Key.MIN, Key.MAX, 10, 20⟩ : PersistentLayerDesc).lsnStart =
        (⟨10, some 20, [(1, [(10, 0)])], [2, 0, 5]⟩ : InMemoryLayer).startLsn ∧
      (⟨10, some 20, [(1, [(10, 0)])], [2, 0, 5]⟩ : InMemoryLayer).endLsn =
        some (⟨Key.MIN, Key.MAX, 10, 20⟩ : PersistentLayerDesc).lsnEnd) :=
  ⟨rfl,
    write_to_disk_desc_full_key_range trialDes
      (⟨10, some 20, [(1, [(10, 0)])], [2, 0, 5]⟩ : InMemoryLayer) none
      ⟨Key.MIN, Key.MAX, 10, 20⟩ [(1, 10, true, [0, 5])] rfl⟩




theorem lastInitSuffix_none_iff (l : List HistoryEntry) :
    lastInitSuffix l = none ↔ ∀ x ∈ l, x.2.2.will_init = false := by
  induction l with
  | nil => simp [lastInitSuffix]
  | cons e rest ih =>
    simp only [lastInitSuffix]
    cases hrec : lastInitSuffix rest with
    | some ss =>
      simp only [reduceCtorEq, false_iff, not_forall]
      have : ¬ ∀ x ∈ rest, x.2.2.will_init = false := by
        intro hall
        rw [ih.mpr hall] at hrec
        cases hrec
      push_neg at this
      obtain ⟨x, hx, hxi⟩ := this
      exact ⟨x, by simp [hx], by simpa using hxi⟩
    | none =>
      have hall := ih.mp hrec
      by_cases hw : e.2.2.will_init
      · simp only [hw, if_true, reduceCtorEq, false_iff, not_forall]
        exact ⟨e, by simp, by simp [hw]⟩
      · simp only [hw, if_false]
        constructor
        · intro _ x hx
          rcases List.mem_cons.mp hx with h | h
          · subst h; simpa using hw
          · exact hall x h
        · intro _; rfl

theorem lastInitSuffix_some_spec (l : List HistoryEntry) :
    ∀ s, lastInitSuffix l = some s →
      ∃ e rest, s = e :: rest ∧ e.2.2.will_init = true ∧
        (∀ x ∈ rest, x.2.2.will_init = false) := by
  induction l with
  | nil => intro s h; cases h
  | cons e rest ih =>
    intro s h
    simp only [lastInitSuffix] at h
    cases hrec : lastInitSuffix rest with
    | some ss =>
      rw [hrec] at h
      dsimp only at h
      cases h
      exact ih _ hrec
    | none =>
      rw [hrec] at h
      dsimp only at h
      by_cases hw : e.2.2.will_init
      · rw [if_pos hw] at h
        cases h
        exact ⟨e, rest, rfl, hw, (lastInitSuffix_none_iff rest).mp hrec⟩
      · rw [if_neg hw] at h
        cases h

theorem truncateReplay_of_no_init (l : List HistoryEntry)
    (h : ∀ x ∈ l, x.2.2.will_init = false) : truncateReplay l = l := by
  simp [truncateReplay, (lastInitSuffix_none_iff l).mpr h]

theorem truncateReplay_of_has_init (l : List HistoryEntry)
    (h : ∃ x ∈ l, x.2.2.will_init = true) :
    ∃ e rest, truncateReplay l = e :: rest ∧ e.2.2.will_init = true ∧
      (∀ x ∈ rest, x.2.2.will_init = false) := by
  cases hrec : lastInitSuffix l with
  | none =>
    obtain ⟨x, hx, hxi⟩ := h
    have := (lastInitSuffix_none_iff l).mp hrec x hx
    rw [this] at hxi
    cases hxi
  | some s =>
    obtain ⟨e, rest, hs, he, hr⟩ := lastInitSuffix_some_spec l s hrec
    exact ⟨e, rest, by simp [truncateReplay, hrec, hs], he, hr⟩

theorem truncateReplay_ne_nil (l : List HistoryEntry) (h : l ≠ []) :
    truncateReplay l ≠ [] := by
  cases hrec : lastInitSuffix l with
  | none => simpa [truncateReplay, hrec]
  | some s =>
    obtain ⟨e, rest, hs, _, _⟩ := lastInitSuffix_some_spec l s hrec
    simp [truncateReplay, hrec, hs]

theorem collectWalRecords_ok_of_no_init (l : List HistoryEntry)
    (h : ∀ x ∈ l, x.2.2.will_init = false) :
    ∃ recs, collectWalRecords l = .ok recs := by
  induction l with
  | nil => exact ⟨[], rfl⟩
  | cons e rest ih =>
    obtain ⟨k, lsn, v⟩ := e
    cases v with
    | image d =>
      have := h (k, lsn, Value.image d) (by simp)
      simp [Value.will_init] at this
    | walRecord w d =>
      obtain ⟨recs, hrecs⟩ := ih (fun x hx => h x (by simp [hx]))
      exact ⟨(lsn, w, d) :: recs, by simp [collectWalRecords, hrecs]⟩


theorem gkrStep_cases (recon : Nat → Nat → ValueReconstructState → Bytes)
    (key : Nat) (splits : List Nat) (batchCnt : Nat) (anc : Bool) (thr : Nat)
    (i : Nat) (st : GkrState) (b : List HistoryEntry)
    (hgood : GoodReplay st.replay) (hrec0 : st.replay = [] → st.records = 0)
    (hemitIdx : (generate_image_flag anc batchCnt i (st.records + b.length) thr &&
      decide (0 < st.records + b.length)) = true → i < splits.length) :
    (gkrStep recon key splits batchCnt anc thr i st b = .error .incompleteHistory ∧
      st.replay = [] ∧ b ≠ [] ∧ (∀ x ∈ b, x.2.2.will_init = false)) ∨
    (∃ st', gkrStep recon key splits batchCnt anc thr i st b = .ok st' ∧
      (((generate_image_flag anc batchCnt i (st.records + b.length) thr &&
          decide (0 < st.records + b.length)) = true ∧
        ∃ img s, splits.get? i = some s ∧
          st' = ⟨[(key, s, Value.image img)], 0,
                 st.retention ++ [[(s, Value.image img)]]⟩) ∨
       ((generate_image_flag anc batchCnt i (st.records + b.length) thr &&
          decide (0 < st.records + b.length)) = false ∧
        st' = ⟨truncateReplay (st.replay ++ b), st.records + b.length,
               st.retention ++ [b.map (fun e => (e.2.1, e.2.2))]⟩)) ∧
      GoodReplay st'.replay ∧ (st'.replay = [] → st'.records = 0)) := by
  by_cases hinit : ∃ x ∈ st.replay ++ b, x.2.2.will_init = true
  · -- the truncated replay history is good and nonempty; no failure possible
    obtain ⟨e1, r1, htr, he1, hr1⟩ := truncateReplay_of_has_init _ hinit
    obtain ⟨k0, l0, v0⟩ := e1
    by_cases hem : (generate_image_flag anc batchCnt i (st.records + b.length) thr &&
        decide (0 < st.records + b.length)) = true
    · -- image emission
      obtain ⟨s, hs⟩ : ∃ s, splits.get? i = some s := by
        have hi := hemitIdx hem
        exact ⟨splits.get ⟨i, hi⟩, List.get?_eq_get hi⟩
      right
      cases v0 with
      | image b0 =>
        obtain ⟨recs, hcoll⟩ := collectWalRecords_ok_of_no_init r1 hr1
        refine ⟨_, ?_, Or.inl ⟨hem, recon key s ⟨some (l0, b0), recs.reverse⟩, s, hs, rfl⟩,
          ⟨rfl, by simp⟩, by simp⟩
        simp only [gkrStep, htr, List.head?_cons, he1, Bool.not_true, if_false, hem,
          Bool.and_eq_true, hcoll, hs]
        simp [he1, hem]
      | walRecord w d =>
        have hw : w = true := by simpa [Value.will_init] using he1
        subst hw
        obtain ⟨recs, hcoll⟩ := collectWalRecords_ok_of_no_init r1 hr1
        refine ⟨_, ?_, Or.inl ⟨hem, recon key s ⟨none, ((l0, true, d) :: recs).reverse⟩, s, hs, rfl⟩,
          ⟨rfl, by simp⟩, by simp⟩
        simp only [gkrStep, htr, List.head?_cons, he1, Bool.not_true, if_false, hem,
          Bool.and_eq_true, collectWalRecords, hcoll, hs]
        simp [he1, hem]
    · -- no emission: keep the bucket verbatim
      right
      simp only [Bool.not_eq_true] at hem
      refine ⟨_, ?_, Or.inr ⟨hem, rfl⟩, ?_, ?_⟩
      · simp only [gkrStep, htr, List.head?_cons, he1, Bool.not_true, if_false]
        rw [hem]
        simp only [Bool.false_eq_true, if_false]
      · show GoodReplay (truncateReplay (st.replay ++ b))
        rw [htr]
        exact ⟨he1, hr1⟩
      · show truncateReplay (st.replay ++ b) = [] → st.records + b.length = 0
        rw [htr]
        intro h
        cases h
  · -- no self-initializing entry anywhere in replay ++ bucket
    push_neg at hinit
    have hrepnil : st.replay = [] := by
      cases hr : st.replay with
      | nil => rfl
      | cons e0 r0 =>
        rw [hr] at hgood
        have := hinit e0 (by simp [hr])
        rw [hgood.1] at this
        simp at this
    have hbnoinit : ∀ x ∈ b, x.2.2.will_init = false := by
      intro x hx
      simpa using hinit x (by simp [hrepnil, hx])
    have htr : truncateReplay (st.replay ++ b) = b := by
      rw [hrepnil, List.nil_append]
      exact truncateReplay_of_no_init b hbnoinit
    by_cases hb : b = []
    · subst hb
      right
      have hrec := hrec0 hrepnil
      refine ⟨_, ?_, Or.inr ⟨?_, rfl⟩, ?_, ?_⟩
      · simp only [gkrStep, htr, List.head?_nil]
        rw [if_neg (by simp)]
        rw [if_neg (by simp [hrec])]
      · simp [hrec]
      · show GoodReplay (truncateReplay (st.replay ++ []))
        rw [htr]
        trivial
      · show truncateReplay (st.replay ++ []) = [] → st.records + List.length ([] : List HistoryEntry) = 0
        intro _
        simp [hrec]
    · obtain ⟨x, xs, hxs⟩ : ∃ x xs, b = x :: xs := by
        cases b with
        | nil => exact absurd rfl hb
        | cons x xs => exact ⟨x, xs, rfl⟩
      left
      have hx : x.2.2.will_init = false := hbnoinit x (by simp [hxs])
      refine ⟨?_, hrepnil, hb, hbnoinit⟩
      subst hxs
      simp only [gkrStep, htr, List.head?_cons, hx, Bool.not_false, if_true]


theorem generate_image_flag_lt (anc : Bool) (batchCnt i records thr splitsLen : Nat)
    (hbc : batchCnt = splitsLen + 1) (hsl : 1 ≤ splitsLen) (hile : i < batchCnt)
    (hflag : generate_image_flag anc batchCnt i records thr = true) : i < splitsLen := by
  unfold generate_image_flag at hflag
  split at hflag
  · rename_i h
    have : i = 0 := by
      rcases Bool.and_eq_true .. |>.mp h with ⟨h1, _⟩
      simpa using h1
    omega
  · split at hflag
    · cases hflag
    · rename_i h1 h2
      omega

theorem firstNonemptyBucket_cons_nil (rest : List (List HistoryEntry)) :
    firstNonemptyBucket ([] :: rest) = firstNonemptyBucket rest := by
  simp [firstNonemptyBucket, List.find?]

theorem firstNonemptyBucket_cons_of_ne (b : List HistoryEntry)
    (rest : List (List HistoryEntry)) (h : b ≠ []) :
    firstNonemptyBucket (b :: rest) = some b := by
  have hne : b.isEmpty = false := by simpa [List.isEmpty_iff] using h
  simp [firstNonemptyBucket, List.find?, hne]

theorem gkrLoop_error_only (recon : Nat → Nat → ValueReconstructState → Bytes)
    (key : Nat) (splits : List Nat) (batchCnt : Nat) (anc : Bool) (thr : Nat)
    (hbc : batchCnt = splits.length + 1) (hsl : 1 ≤ splits.length) :
    ∀ bs i st e, i + bs.length = batchCnt →
    GoodReplay st.replay → (st.replay = [] → st.records = 0) →
    gkrLoop recon key splits batchCnt anc thr i st bs = .error e →
    e = .incompleteHistory := by
  intro bs
  induction bs with
  | nil => intro i st e _ _ _ h; cases h
  | cons b rest ih =>
    intro i st e hlen hgood hrec0 h
    have hemitIdx : (generate_image_flag anc batchCnt i (st.records + b.length) thr &&
        decide (0 < st.records + b.length)) = true → i < splits.length := by
      intro hem
      rcases Bool.and_eq_true .. |>.mp hem with ⟨h1, _⟩
      exact generate_image_flag_lt anc batchCnt i _ thr splits.length hbc hsl
        (by simp at hlen ⊢; omega) h1
    rcases gkrStep_cases recon key splits batchCnt anc thr i st b hgood hrec0 hemitIdx with
      ⟨herr, _, _, _⟩ | ⟨st1, hok, _, hgood1, hrec1⟩
    · simp only [gkrLoop, herr] at h
      cases h
      rfl
    · simp only [gkrLoop, hok] at h
      exact ih (i + 1) st1 e (by simp at hlen ⊢; omega) hgood1 hrec1 h

theorem gkrLoop_fail (recon : Nat → Nat → ValueReconstructState → Bytes)
    (key : Nat) (splits : List Nat) (batchCnt : Nat) (anc : Bool) (thr : Nat)
    (hbc : batchCnt = splits.length + 1) (hsl : 1 ≤ splits.length) :
    ∀ bs i st b0, i + bs.length = batchCnt →
    st.replay = [] → st.records = 0 →
    firstNonemptyBucket bs = some b0 → (∀ x ∈ b0, x.2.2.will_init = false) →
    gkrLoop recon key splits batchCnt anc thr i st bs = .error .incompleteHistory := by
  intro bs
  induction bs with
  | nil => intro i st b0 _ _ _ hfb; cases hfb
  | cons b rest ih =>
    intro i st b0 hlen hrep hrec hfb hnoinit
    by_cases hb : b = []
    · subst hb
      rw [firstNonemptyBucket_cons_nil] at hfb
      have hstep : gkrStep recon key splits batchCnt anc thr i st [] =
          .ok ⟨truncateReplay (st.replay ++ []), st.records + 0, st.retention ++ [[]]⟩ := by
        simp only [gkrStep, hrep, List.append_nil, List.nil_append]
        rw [truncateReplay_of_no_init [] (by simp)]
        rw [if_neg (by simp)]
        rw [if_neg (by simp [hrec])]
        simp
      simp only [gkrLoop, hstep]
      refine ih (i + 1) _ b0 (by simp at hlen ⊢; omega) ?_ ?_ hfb hnoinit
      · show truncateReplay (st.replay ++ []) = []
        simp [hrep, truncateReplay, lastInitSuffix]
      · show st.records + 0 = 0
        simp [hrec]
    · rw [firstNonemptyBucket_cons_of_ne b rest hb] at hfb
      cases hfb
      have hstep : gkrStep recon key splits batchCnt anc thr i st b =
          .error .incompleteHistory := by
        obtain ⟨x, xs, hxs⟩ : ∃ x xs, b = x :: xs := by
          cases b with
          | nil => exact absurd rfl hb
          | cons x xs => exact ⟨x, xs, rfl⟩
        have htr : truncateReplay (st.replay ++ b) = b := by
          rw [hrep, List.nil_append]
          exact truncateReplay_of_no_init b hnoinit
        have hx : x.2.2.will_init = false := hnoinit x (by simp [hxs])
        subst hxs
        simp only [gkrStep, htr, List.head?_cons, hx, Bool.not_false, if_true]
      simp [gkrLoop, hstep]


theorem gkrLoop_ok (recon : Nat → Nat → ValueReconstructState → Bytes)
    (key : Nat) (splits : List Nat) (batchCnt : Nat) (anc : Bool) (thr : Nat)
    (hbc : batchCnt = splits.length + 1) (hsl : 1 ≤ splits.length) :
    ∀ bs i st, i + bs.length = batchCnt →
    GoodReplay st.replay → (st.replay = [] → st.records = 0) →
    (st.replay = [] → ∀ b0, firstNonemptyBucket bs = some b0 →
      ∃ x ∈ b0, x.2.2.will_init = true) →
    ∃ st', gkrLoop recon key splits batchCnt anc thr i st bs = .ok st' := by
  intro bs
  induction bs with
  | nil => intro i st _ _ _ _; exact ⟨st, rfl⟩
  | cons b rest ih =>
    intro i st hlen hgood hrec0 hokb
    have hemitIdx : (generate_image_flag anc batchCnt i (st.records + b.length) thr &&
        decide (0 < st.records + b.length)) = true → i < splits.length := by
      intro hem
      rcases Bool.and_eq_true .. |>.mp hem with ⟨h1, _⟩
      exact generate_image_flag_lt anc batchCnt i _ thr splits.length hbc hsl
        (by simp at hlen ⊢; omega) h1
    rcases gkrStep_cases recon key splits batchCnt anc thr i st b hgood hrec0 hemitIdx with
      ⟨herr, hrep, hbne, hnoinit⟩ | ⟨st1, hok, hshape, hgood1, hrec1⟩
    · obtain ⟨x, hx, hxi⟩ := hokb hrep b (firstNonemptyBucket_cons_of_ne b rest hbne)
      rw [hnoinit x hx] at hxi
      cases hxi
    · have hnext : st1.replay = [] → ∀ b0, firstNonemptyBucket rest = some b0 →
          ∃ x ∈ b0, x.2.2.will_init = true := by
        intro hrep1 b0 hfb
        rcases hshape with ⟨_, img, s, _, hst1⟩ | ⟨_, hst1⟩
        · rw [hst1] at hrep1
          cases hrep1
        · rw [hst1] at hrep1
          have hrep1' : truncateReplay (st.replay ++ b) = [] := hrep1
          have hnil : st.replay ++ b = [] := by
            by_contra hc
            exact truncateReplay_ne_nil _ hc hrep1'
          have hrep : st.replay = [] := by
            rcases List.append_eq_nil.mp hnil with ⟨h1, _⟩
            exact h1
          have hb : b = [] := by
            rcases List.append_eq_nil.mp hnil with ⟨_, h2⟩
            exact h2
          subst hb
          exact hokb hrep b0 (by rw [firstNonemptyBucket_cons_nil]; exact hfb)
      obtain ⟨st', hst'⟩ := ih (i + 1) st1 (by simp at hlen ⊢; omega) hgood1 hrec1 hnext
      exact ⟨st', by simp only [gkrLoop, hok]; exact hst'⟩


theorem gkrLoop_flags (recon : Nat → Nat → ValueReconstructState → Bytes)
    (key : Nat) (splits : List Nat) (batchCnt : Nat) (anc : Bool) (thr : Nat)
    (hbc : batchCnt = splits.length + 1) (hsl : 1 ≤ splits.length) :
    ∀ bs i st st', i + bs.length = batchCnt →
    GoodReplay st.replay → (st.replay = [] → st.records = 0) →
    gkrLoop recon key splits batchCnt anc thr i st bs = .ok st' →
    ∃ outs, st'.retention = st.retention ++ outs ∧ outs.length = bs.length ∧
      ∀ j b, bs.get? j = some b →
        ((imageFlags anc thr batchCnt i st.records (bs.map List.length)).get? j =
            some true →
          ∃ img s, splits.get? (i + j) = some s ∧
            outs.get? j = some [(s, Value.image img)]) ∧
        ((imageFlags anc thr batchCnt i st.records (bs.map List.length)).get? j =
            some false →
          outs.get? j = some (b.map (fun e => (e.2.1, e.2.2)))) := by
  intro bs
  induction bs with
  | nil =>
    intro i st st' _ _ _ h
    cases h
    exact ⟨[], by simp, by simp, by intro j b hj; cases hj⟩
  | cons b rest ih =>
    intro i st st' hlen hgood hrec0 h
    have hemitIdx : (generate_image_flag anc batchCnt i (st.records + b.length) thr &&
        decide (0 < st.records + b.length)) = true → i < splits.length := by
      intro hem
      rcases Bool.and_eq_true .. |>.mp hem with ⟨h1, _⟩
      exact generate_image_flag_lt anc batchCnt i _ thr splits.length hbc hsl
        (by simp at hlen ⊢; omega) h1
    rcases gkrStep_cases recon key splits batchCnt anc thr i st b hgood hrec0 hemitIdx with
      ⟨herr, _, _, _⟩ | ⟨st1, hok, hshape, hgood1, hrec1⟩
    · rw [gkrLoop, herr] at h
      cases h
    · rw [gkrLoop, hok] at h
      obtain ⟨outs', hret', hlen', hspec'⟩ :=
        ih (i + 1) st1 st' (by simp at hlen ⊢; omega) hgood1 hrec1 h
      rcases hshape with ⟨hem, img, s, hs, hst1⟩ | ⟨hem, hst1⟩
      · -- image emitted for this bucket
        subst hst1
        refine ⟨[(s, Value.image img)] :: outs', ?_, by simpa using hlen', ?_⟩
        · simpa using hret'
        · intro j bj hj
          cases j with
          | zero =>
            constructor
            · intro _
              exact ⟨img, s, by simpa using hs, rfl⟩
            · intro hfl
              rw [show (imageFlags anc thr batchCnt i st.records
                  ((b :: rest).map List.length)).get? 0 = some true from ?_] at hfl
              · cases hfl
              · simp only [List.map_cons, imageFlags, hem]
                rfl
          | succ j' =>
            have hj' : rest.get? j' = some bj := by simpa using hj
            have hflags : (imageFlags anc thr batchCnt i st.records
                ((b :: rest).map List.length)).get? (j' + 1) =
                (imageFlags anc thr batchCnt (i + 1) 0 (rest.map List.length)).get? j' := by
              simp only [List.map_cons, imageFlags, hem]
              rfl
            have hrecords0 : (⟨[(key, s, Value.image img)], 0,
                st.retention ++ [[(s, Value.image img)]]⟩ : GkrState).records = 0 := rfl
            obtain ⟨hA, hB⟩ := hspec' j' bj hj'
            rw [hrecords0] at hA hB
            constructor
            · intro hfl
              rw [hflags] at hfl
              obtain ⟨img2, s2, hs2, houts⟩ := hA hfl
              exact ⟨img2, s2, by rw [show i + (j' + 1) = i + 1 + j' by omega]; exact hs2,
                by simpa using houts⟩
            · intro hfl
              rw [hflags] at hfl
              have := hB hfl
              simpa using this
      · -- bucket kept verbatim
        subst hst1
        refine ⟨(b.map (fun e => (e.2.1, e.2.2))) :: outs', ?_, by simpa using hlen', ?_⟩
        · simpa using hret'
        · intro j bj hj
          cases j with
          | zero =>
            constructor
            · intro hfl
              rw [show (imageFlags anc thr batchCnt i st.records
                  ((b :: rest).map List.length)).get? 0 = some false from ?_] at hfl
              · cases hfl
              · simp only [List.map_cons, imageFlags, hem]
                rfl
            · intro _
              have hb : b = bj := by simpa using hj
              rw [hb]
              rfl
          | succ j' =>
            have hj' : rest.get? j' = some bj := by simpa using hj
            have hflags : (imageFlags anc thr batchCnt i st.records
                ((b :: rest).map List.length)).get? (j' + 1) =
                (imageFlags anc thr batchCnt (i + 1)
                  (st.records + b.length) (rest.map List.length)).get? j' := by
              simp only [List.map_cons, imageFlags, hem]
              rfl
            have hrecords : (⟨truncateReplay (st.replay ++ b), st.records + b.length,
                st.retention ++ [b.map (fun e => (e.2.1, e.2.2))]⟩ : GkrState).records =
                st.records + b.length := rfl
            obtain ⟨hA, hB⟩ := hspec' j' bj hj'
            rw [hrecords] at hA hB
            constructor
            · intro hfl
              rw [hflags] at hfl
              obtain ⟨img2, s2, hs2, houts⟩ := hA hfl
              exact ⟨img2, s2, by rw [show i + (j' + 1) = i + 1 + j' by omega]; exact hs2,
                by simpa using houts⟩
            · intro hfl
              rw [hflags] at hfl
              have := hB hfl
              simpa using this


theorem zip_get?_eq {α β : Type} (l1 : List α) (l2 : List β) :
    ∀ i a b, l1.get? i = some a → l2.get? i = some b →
      (l1.zip l2).get? i = some (a, b) := by
  induction l1 generalizing l2 with
  | nil => intro i a b h; cases h
  | cons x xs ih =>
    intro i a b h1 h2
    cases l2 with
    | nil => cases h2
    | cons y ys =>
      cases i with
      | zero =>
        cases h1; cases h2
        rfl
      | succ i' =>
        simpa using ih ys i' a b (by simpa using h1) (by simpa using h2)

theorem assembleRetention_spec (splits : List Nat) :
    ∀ logsList idx acc r, assembleRetention splits idx logsList acc = .ok r →
      r.below_horizon = acc ++ ((splits.drop idx).zip logsList) ∧
      logsList.get? (splits.length - idx) = some r.above_horizon := by
  intro logsList
  induction logsList with
  | nil => intro idx acc r h; cases h
  | cons logs rest ih =>
    intro idx acc r h
    simp only [assembleRetention] at h
    by_cases hidx : idx = splits.length
    · rw [if_pos hidx] at h
      cases h
      subst hidx
      constructor
      · simp
      · simp
    · rw [if_neg hidx] at h
      cases hget : splits.get? idx with
      | none => rw [hget] at h; cases h
      | some s =>
        rw [hget] at h
        dsimp only at h
        obtain ⟨hbelow, habove⟩ := ih (idx + 1) (acc ++ [(s, logs)]) r h
        have hlt : idx < splits.length := by
          rcases Nat.lt_or_ge idx splits.length with hlt | hge
          · exact hlt
          · rw [List.get?_eq_none.mpr hge] at hget
            cases hget
        constructor
        · rw [hbelow]
          have hdrop : splits.drop idx = s :: splits.drop (idx + 1) := by
            have hg : splits.get? idx = some (splits.get ⟨idx, hlt⟩) := List.get?_eq_get hlt
            rw [hget] at hg
            injection hg with hg
            rw [List.drop_eq_getElem_cons hlt, ← List.get_eq_getElem splits ⟨idx, hlt⟩, ← hg]
          rw [hdrop]
          simp
        · have : splits.length - idx = (splits.length - (idx + 1)) + 1 := by omega
          rw [this]
          simpa using habove

theorem assembleRetention_total (splits : List Nat) :
    ∀ logsList idx acc, logsList.length + idx = splits.length + 1 → idx ≤ splits.length →
      ∃ r, assembleRetention splits idx logsList acc = .ok r := by
  intro logsList
  induction logsList with
  | nil => intro idx acc hlen hle; simp at hlen; omega
  | cons logs rest ih =>
    intro idx acc hlen hle
    simp only [assembleRetention]
    by_cases hidx : idx = splits.length
    · rw [if_pos hidx]
      exact ⟨_, rfl⟩
    · rw [if_neg hidx]
      have hlt : idx < splits.length := by omega
      rw [List.get?_eq_get hlt]
      exact ih (idx + 1) (acc ++ [(splits.get ⟨idx, hlt⟩, logs)])
        (by simp at hlen ⊢; omega) (by omega)

theorem imageFlags_length (anc : Bool) (thr batchCnt : Nat) :
    ∀ ns i records, (imageFlags anc thr batchCnt i records ns).length = ns.length := by
  intro ns
  induction ns with
  | nil => intro i records; rfl
  | cons n rest ih =>
    intro i records
    simp [imageFlags, ih]

theorem imageFlags_last (anc : Bool) (thr batchCnt : Nat) (hbc : 2 ≤ batchCnt) :
    ∀ ns i records j, i + j = batchCnt - 1 → j < ns.length →
      (imageFlags anc thr batchCnt i records ns).get? j = some false := by
  intro ns
  induction ns with
  | nil => intro i records j _ hj; simp at hj
  | cons n rest ih =>
    intro i records j hij hj
    cases j with
    | zero =>
      have hi : i = batchCnt - 1 := by omega
      have hflag : generate_image_flag anc batchCnt i (records + n) thr = false := by
        unfold generate_image_flag
        rw [if_neg (by simp; intro h; omega)]
        rw [if_pos hi]
      simp only [imageFlags, hflag, Bool.false_and]
      rfl
    | succ j' =>
      simp only [imageFlags]
      exact ih (i + 1) _ j' (by omega) (by simpa using hj)


theorem bucketOfSpec_le (splits : List Nat) (lsn : Nat) :
    bucketOfSpec splits lsn ≤ splits.length := by
  induction splits with
  | nil => simp [bucketOfSpec]
  | cons s rest ih =>
    simp only [bucketOfSpec]
    split
    · simp
    · simpa using ih

theorem bucketOfSpec_below (splits : List Nat) (lsn : Nat) :
    ∀ j s, j < bucketOfSpec splits lsn → splits.get? j = some s → s < lsn := by
  induction splits with
  | nil => intro j s hj hs; cases hs
  | cons s0 rest ih =>
    intro j s hj hs
    simp only [bucketOfSpec] at hj
    by_cases hle : lsn ≤ s0
    · rw [if_pos hle] at hj
      omega
    · rw [if_neg hle] at hj
      cases j with
      | zero =>
        cases hs
        omega
      | succ j' =>
        exact ih j' s (by omega) (by simpa using hs)

theorem bucketOfSpec_at (splits : List Nat) (lsn : Nat) :
    ∀ s, splits.get? (bucketOfSpec splits lsn) = some s → lsn ≤ s := by
  induction splits with
  | nil => intro s hs; cases hs
  | cons s0 rest ih =>
    intro s hs
    simp only [bucketOfSpec] at hs
    by_cases hle : lsn ≤ s0
    · rw [if_pos hle] at hs
      cases hs
      exact hle
    · rw [if_neg hle] at hs
      exact ih s (by simpa using hs)

theorem bucketOfSpec_full (splits : List Nat) (lsn : Nat)
    (h : ∀ j s, splits.get? j = some s → s < lsn) :
    bucketOfSpec splits lsn = splits.length := by
  induction splits with
  | nil => rfl
  | cons s0 rest ih =>
    have h0 : s0 < lsn := h 0 s0 rfl
    simp only [bucketOfSpec, if_neg (by omega : ¬ lsn ≤ s0)]
    have := ih (fun j s hs => h (j + 1) s (by simpa using hs))
    simp [this]

theorem advanceIdxAux_eq (splits : List Nat) (lsn : Nat) :
    ∀ fuel cur, splits.length - cur ≤ fuel → cur ≤ splits.length →
    (∀ j s, j < cur → splits.get? j = some s → s < lsn) →
    advanceIdxAux splits lsn fuel cur = bucketOfSpec splits lsn := by
  intro fuel
  induction fuel with
  | zero =>
    intro cur hf hle hbelow
    have hcur : cur = splits.length := by omega
    simp only [advanceIdxAux]
    rw [bucketOfSpec_full splits lsn (fun j s hs => hbelow j s ?_ hs), hcur]
    have : j < splits.length := by
      rcases Nat.lt_or_ge j splits.length with h | h
      · exact h
      · rw [List.get?_eq_none.mpr h] at hs
        cases hs
    omega
  | succ fuel ih =>
    intro cur hf hle hbelow
    simp only [advanceIdxAux]
    by_cases hlt : cur < splits.length
    · rw [dif_pos hlt]
      by_cases hget : splits.get ⟨cur, hlt⟩ < lsn
      · rw [if_pos hget]
        refine ih (cur + 1) (by omega) (by omega) ?_
        intro j s hj hs
        rcases Nat.lt_or_ge j cur with hj' | hj'
        · exact hbelow j s hj' hs
        · have hj2 : j = cur := by omega
          subst hj2
          rw [List.get?_eq_get hlt] at hs
          cases hs
          exact hget
      · rw [if_neg hget]
        have h1 : cur ≤ bucketOfSpec splits lsn := by
          by_contra hc
          push_neg at hc
          have hs : splits.get? (bucketOfSpec splits lsn) =
              some (splits.get ⟨bucketOfSpec splits lsn, by omega⟩) :=
            List.get?_eq_get (by omega)
          have hge := bucketOfSpec_at splits lsn _ hs
          have hlt2 := hbelow _ _ hc hs
          omega
        have h2 : bucketOfSpec splits lsn ≤ cur := by
          by_contra hc
          push_neg at hc
          have hs : splits.get? cur = some (splits.get ⟨cur, hlt⟩) := List.get?_eq_get hlt
          have := bucketOfSpec_below splits lsn cur _ hc hs
          omega
        omega
    · rw [dif_neg hlt]
      have hcur : cur = splits.length := by omega
      rw [bucketOfSpec_full splits lsn (fun j s hs => hbelow j s ?_ hs), hcur]
      have : j < splits.length := by
        rcases Nat.lt_or_ge j splits.length with h | h
        · exact h
        · rw [List.get?_eq_none.mpr h] at hs
          cases hs
      omega

theorem advanceIdx_eq (splits : List Nat) (lsn : Nat) (cur : Nat)
    (hle : cur ≤ splits.length)
    (hbelow : ∀ j s, j < cur → splits.get? j = some s → s < lsn) :
    advanceIdx splits lsn cur = bucketOfSpec splits lsn :=
  advanceIdxAux_eq splits lsn (splits.length - cur) cur (Nat.le_refl _) hle hbelow

theorem placeEntries_eq (splits : List Nat) :
    ∀ (history : List HistoryEntry) cur,
    history.Pairwise (fun a b => a.2.1 ≤ b.2.1) →
    cur ≤ splits.length →
    (∀ e ∈ history, ∀ j s, j < cur → splits.get? j = some s → s < e.2.1) →
    placeEntries splits history cur =
      history.map (fun e => (bucketOfSpec splits e.2.1, e)) := by
  intro history
  induction history with
  | nil => intro cur _ _ _; rfl
  | cons e rest ih =>
    intro cur hsorted hle hbelow
    obtain ⟨hhd, htl⟩ := List.pairwise_cons.mp hsorted
    have hadv : advanceIdx splits e.2.1 cur = bucketOfSpec splits e.2.1 :=
      advanceIdx_eq splits e.2.1 cur hle
        (fun j s hj hs => hbelow e (by simp) j s hj hs)
    simp only [placeEntries, hadv, List.map_cons]
    rw [ih (bucketOfSpec splits e.2.1) htl (bucketOfSpec_le splits e.2.1) ?_]
    intro x hx j s hj hs
    rcases Nat.lt_or_ge j cur with hj' | hj'
    · exact Nat.lt_of_lt_of_le (hbelow e (by simp) j s hj' hs) (hhd x hx)
    · have := bucketOfSpec_below splits e.2.1 j s hj hs
      exact Nat.lt_of_lt_of_le this (hhd x hx)

theorem split_history_spec (splits : List Nat) (history : List HistoryEntry)
    (hsorted : history.Pairwise (fun a b => a.2.1 ≤ b.2.1)) :
    split_history splits history =
      (List.range (splits.length + 1)).map
        (fun i => history.filter (fun e => bucketOfSpec splits e.2.1 = i)) := by
  unfold split_history
  rw [placeEntries_eq splits history 0 hsorted (by omega) (by intro e _ j s hj; omega)]
  refine List.map_congr_left ?_
  intro i _
  rw [List.filter_map]
  rw [List.map_map]
  have : (Prod.snd ∘ fun e : HistoryEntry => (bucketOfSpec splits e.2.1, e)) = id := by
    funext e
    rfl
  rw [this, List.map_id]
  rfl


theorem split_history_length (splits : List Nat) (history : List HistoryEntry) :
    (split_history splits history).length = splits.length + 1 := by
  simp [split_history]

/-- C7: `generate_key_retention` fails if and only if, at some bucket during
replay, the replay history is nonempty and its first entry is not
self-initializing — which happens exactly when there is no ancestor base
image and the first nonempty (deduplicated) bucket contains no
self-initializing entry: buckets before it leave the replay history empty,
and once a self-initializing entry is present the truncation keeps one at
the front forever.  Moreover the only error ever returned is
`IncompleteHistory` (being an `Except`, a failing call produces no
retention output). -/
theorem generate_key_retention_incomplete_history
    (recon : Nat → Nat → ValueReconstructState → Bytes) (key : Nat)
    (full_history : List HistoryEntry) (horizon : Nat) (retains : List Nat)
    (thr : Nat) (base : Option (Nat × Nat × Bytes)) :
    ((∃ e, generate_key_retention recon key full_history horizon retains thr base =
        .error e) ↔
      (base = none ∧ firstNonemptyBucketLacksInit
        ((split_history (retains ++ [horizon]) full_history).map dedup_split_for_lsn) =
          true)) ∧
    (∀ e, generate_key_retention recon key full_history horizon retains thr base =
        .error e → e = .incompleteHistory) := by
  have hbucklen : (((split_history (retains ++ [horizon]) full_history).map
      dedup_split_for_lsn)).length = (retains ++ [horizon]).length + 1 := by
    rw [List.length_map, split_history_length]
  have hsl : 1 ≤ (retains ++ [horizon]).length := by simp
  have hinitgood : GoodReplay (match base with
      | some (k, lsn, img) => [(k, lsn, Value.image img)]
      | none => []) := by
    cases base with
    | none => trivial
    | some p =>
      obtain ⟨k, lsn, img⟩ := p
      exact ⟨rfl, by simp⟩
  constructor
  · constructor
    · -- error implies no ancestor and a bad first nonempty bucket
      intro ⟨e, he⟩
      by_contra hc
      push_neg at hc
      have hokb : (match base with
          | some (k, lsn, img) => [(k, lsn, Value.image img)]
          | none => ([] : List HistoryEntry)) = [] →
          ∀ b0, firstNonemptyBucket ((split_history (retains ++ [horizon])
            full_history).map dedup_split_for_lsn) = some b0 →
          ∃ x ∈ b0, x.2.2.will_init = true := by
        intro hrep b0 hfb
        cases hbase : base with
        | some p => rw [hbase] at hrep; obtain ⟨k, lsn, img⟩ := p; cases hrep
        | none =>
          have hlack := hc hbase
          rw [firstNonemptyBucketLacksInit, hfb] at hlack
          by_contra hni
          push_neg at hni
          apply hlack
          simp only [List.all_eq_true]
          intro x hx
          simpa using hni x hx
      obtain ⟨st', hst'⟩ := gkrLoop_ok recon key (retains ++ [horizon]) _
        base.isSome thr hbucklen hsl
        ((split_history (retains ++ [horizon]) full_history).map dedup_split_for_lsn)
        0 ⟨_, 0, []⟩ (by simpa using hbucklen) hinitgood (fun _ => rfl) hokb
      obtain ⟨outs, houts, hlenouts, _⟩ := gkrLoop_flags recon key
        (retains ++ [horizon]) _ base.isSome thr hbucklen hsl _ 0 _ st'
        (by simpa using hbucklen) hinitgood (fun _ => rfl) hst'
      obtain ⟨r, hr⟩ := assembleRetention_total (retains ++ [horizon]) st'.retention 0 []
        (by rw [houts]; simp [hlenouts, hbucklen]) (by omega)
      unfold generate_key_retention at he
      simp only [hst', hr] at he
      cases he
    · -- no ancestor and a bad first bucket imply failure
      intro ⟨hbase, hlack⟩
      subst hbase
      rw [firstNonemptyBucketLacksInit] at hlack
      cases hfb : firstNonemptyBucket ((split_history (retains ++ [horizon])
          full_history).map dedup_split_for_lsn) with
      | none => rw [hfb] at hlack; cases hlack
      | some b0 =>
        rw [hfb] at hlack
        simp only [List.all_eq_true] at hlack
        have hlack2 : ∀ x ∈ b0, x.2.2.will_init = false := by
          intro x hx
          simpa using hlack x hx
        have hfail := gkrLoop_fail recon key (retains ++ [horizon]) _
          (none : Option (Nat × Nat × Bytes)).isSome thr hbucklen hsl
          ((split_history (retains ++ [horizon]) full_history).map dedup_split_for_lsn)
          0 ⟨[], 0, []⟩ b0 (by simpa using hbucklen) rfl rfl hfb hlack2
        refine ⟨.incompleteHistory, ?_⟩
        unfold generate_key_retention
        simp only [hfail]
  · intro e he
    have hinitgood2 : GoodReplay
        ((base.elim [] (fun p => [(p.1, p.2.1, Value.image p.2.2)])) : List HistoryEntry) := by
      cases base with
      | none => trivial
      | some p => exact ⟨rfl, by simp⟩
    have he2 : (match gkrLoop recon key (retains ++ [horizon])
        ((split_history (retains ++ [horizon]) full_history).map dedup_split_for_lsn).length
        base.isSome thr 0
        ⟨base.elim [] (fun p => [(p.1, p.2.1, Value.image p.2.2)]), 0, []⟩
        ((split_history (retains ++ [horizon]) full_history).map dedup_split_for_lsn) with
      | .error e2 => (Except.error e2 : Except GkrErr KeyHistoryRetention)
      | .ok st => assembleRetention (retains ++ [horizon]) 0 st.retention []) =
        .error e := by
      cases base with
      | none => exact he
      | some p => exact he
    obtain ⟨e2, hloop⟩ | ⟨st', hloop⟩ :
        (∃ e2, gkrLoop recon key (retains ++ [horizon])
          ((split_history (retains ++ [horizon]) full_history).map dedup_split_for_lsn).length
          base.isSome thr 0
          ⟨base.elim [] (fun p => [(p.1, p.2.1, Value.image p.2.2)]), 0, []⟩
          ((split_history (retains ++ [horizon]) full_history).map dedup_split_for_lsn) =
            .error e2) ∨
        (∃ st', gkrLoop recon key (retains ++ [horizon])
          ((split_history (retains ++ [horizon]) full_history).map dedup_split_for_lsn).length
          base.isSome thr 0
          ⟨base.elim [] (fun p => [(p.1, p.2.1, Value.image p.2.2)]), 0, []⟩
          ((split_history (retains ++ [horizon]) full_history).map dedup_split_for_lsn) =
            .ok st') := by
      cases gkrLoop recon key (retains ++ [horizon])
          ((split_history (retains ++ [horizon]) full_history).map dedup_split_for_lsn).length
          base.isSome thr 0
          ⟨base.elim [] (fun p => [(p.1, p.2.1, Value.image p.2.2)]), 0, []⟩
          ((split_history (retains ++ [horizon]) full_history).map dedup_split_for_lsn) with
      | error e2 => exact Or.inl ⟨e2, rfl⟩
      | ok st' => exact Or.inr ⟨st', rfl⟩
    · rw [hloop] at he2
      dsimp only at he2
      injection he2 with he2
      subst he2
      exact gkrLoop_error_only recon key (retains ++ [horizon]) _ base.isSome thr
        hbucklen hsl _ 0 _ e2 (by simpa using hbucklen) hinitgood2 (fun _ => rfl) hloop
    · rw [hloop] at he2
      dsimp only at he2
      obtain ⟨outs, houts, hlenouts, _⟩ := gkrLoop_flags recon key
        (retains ++ [horizon]) _ base.isSome thr hbucklen hsl _ 0 _ st'
        (by simpa using hbucklen) hinitgood2 (fun _ => rfl) hloop
      obtain ⟨r, hr⟩ := assembleRetention_total (retains ++ [horizon]) st'.retention 0 []
        (by rw [houts]; simp [hlenouts, hbucklen]) (by omega)
      rw [hr] at he2
      cases he2


/-- C10: for every successful call with `k` retain LSNs below the horizon,
the returned `below_horizon` list has exactly `k + 1` entries whose cutoff
LSNs are, in order, the `k` retain LSNs followed by the horizon; and step 1
places every input history entry (given in ascending LSN order, as the
debug assertions require) into the bucket whose split point is the first
one `≥` the entry's LSN, entries above the horizon going to the final
(above-horizon) bucket. -/
theorem generate_key_retention_buckets
    (recon : Nat → Nat → ValueReconstructState → Bytes) (key : Nat)
    (full_history : List HistoryEntry) (horizon : Nat) (retains : List Nat)
    (thr : Nat) (base : Option (Nat × Nat × Bytes))
    (hsorted : full_history.Pairwise (fun a b => a.2.1 ≤ b.2.1)) :
    split_history (retains ++ [horizon]) full_history =
      (List.range (retains.length + 2)).map
        (fun i => full_history.filter
          (fun e => bucketOfSpec (retains ++ [horizon]) e.2.1 = i)) ∧
    ∀ r, generate_key_retention recon key full_history horizon retains thr base =
        .ok r →
      r.below_horizon.map Prod.fst = retains ++ [horizon] ∧
      r.below_horizon.length = retains.length + 1 := by
  have hbucklen : (((split_history (retains ++ [horizon]) full_history).map
      dedup_split_for_lsn)).length = (retains ++ [horizon]).length + 1 := by
    rw [List.length_map, split_history_length]
  have hsl : 1 ≤ (retains ++ [horizon]).length := by simp
  constructor
  · have := split_history_spec (retains ++ [horizon]) full_history hsorted
    have hlen : (retains ++ [horizon]).length + 1 = retains.length + 2 := by simp
    rw [hlen] at this
    exact this
  · intro r hok
    have hinitgood2 : GoodReplay
        ((base.elim [] (fun p => [(p.1, p.2.1, Value.image p.2.2)])) : List HistoryEntry) := by
      cases base with
      | none => trivial
      | some p => exact ⟨rfl, by simp⟩
    have hok2 : (match gkrLoop recon key (retains ++ [horizon])
        ((split_history (retains ++ [horizon]) full_history).map dedup_split_for_lsn).length
        base.isSome thr 0
        ⟨base.elim [] (fun p => [(p.1, p.2.1, Value.image p.2.2)]), 0, []⟩
        ((split_history (retains ++ [horizon]) full_history).map dedup_split_for_lsn) with
      | .error e2 => (Except.error e2 : Except GkrErr KeyHistoryRetention)
      | .ok st => assembleRetention (retains ++ [horizon]) 0 st.retention []) =
        .ok r := by
      cases base with
      | none => exact hok
      | some p => exact hok
    obtain ⟨e2, hloop⟩ | ⟨st', hloop⟩ :
        (∃ e2, gkrLoop recon key (retains ++ [horizon])
          ((split_history (retains ++ [horizon]) full_history).map dedup_split_for_lsn).length
          base.isSome thr 0
          ⟨base.elim [] (fun p => [(p.1, p.2.1, Value.image p.2.2)]), 0, []⟩
          ((split_history (retains ++ [horizon]) full_history).map dedup_split_for_lsn) =
            .error e2) ∨
        (∃ st', gkrLoop recon key (retains ++ [horizon])
          ((split_history (retains ++ [horizon]) full_history).map dedup_split_for_lsn).length
          base.isSome thr 0
          ⟨base.elim [] (fun p => [(p.1, p.2.1, Value.image p.2.2)]), 0, []⟩
          ((split_history (retains ++ [horizon]) full_history).map dedup_split_for_lsn) =
            .ok st') := by
      cases gkrLoop recon key (retains ++ [horizon])
          ((split_history (retains ++ [horizon]) full_history).map dedup_split_for_lsn).length
          base.isSome thr 0
          ⟨base.elim [] (fun p => [(p.1, p.2.1, Value.image p.2.2)]), 0, []⟩
          ((split_history (retains ++ [horizon]) full_history).map dedup_split_for_lsn) with
      | error e2 => exact Or.inl ⟨e2, rfl⟩
      | ok st' => exact Or.inr ⟨st', rfl⟩
    · rw [hloop] at hok2
      dsimp only at hok2
      cases hok2
    · rw [hloop] at hok2
      dsimp only at hok2
      obtain ⟨outs, houts, hlenouts, _⟩ := gkrLoop_flags recon key
        (retains ++ [horizon]) _ base.isSome thr hbucklen hsl _ 0 _ st'
        (by simpa using hbucklen) hinitgood2 (fun _ => rfl) hloop
      obtain ⟨hbelow, _⟩ := assembleRetention_spec (retains ++ [horizon])
        st'.retention 0 [] r hok2
      have hretlen : st'.retention.length = (retains ++ [horizon]).length + 1 := by
        rw [houts]
        simp [hlenouts, hbucklen]
      rw [List.drop_zero] at hbelow
      have hmap : r.below_horizon.map Prod.fst = retains ++ [horizon] := by
        rw [hbelow]
        simp only [List.nil_append]
        exact List.map_fst_zip _ _ (by omega)
      refine ⟨hmap, ?_⟩
      have := congrArg List.length hmap
      simpa using this


/-- C2 (amended): in a successful `generate_key_retention` run, an image is
emitted at bucket `i`'s upper LSN exactly when `records_since_last_image`
is positive and either (`i = 0` and there is no ancestor base image) or
(`i` is not the last bucket and `records_since_last_image` has reached the
delta threshold): below-horizon bucket `j` of the output is the singleton
image at split point `j` when `imageFlags` says `true` and the bucket's
deltas verbatim when it says `false`, the final (above-horizon) bucket
never emits, and its deltas are returned verbatim as `above_horizon`. -/
theorem generate_key_retention_image_emission
    (recon : Nat → Nat → ValueReconstructState → Bytes) (key : Nat)
    (full_history : List HistoryEntry) (horizon : Nat) (retains : List Nat)
    (thr : Nat) (base : Option (Nat × Nat × Bytes)) (r : KeyHistoryRetention)
    (hok : generate_key_retention recon key full_history horizon retains thr base =
      .ok r)
    (buckets : List (List HistoryEntry)) (flags : List Bool)
    (hbuckets : buckets =
      (split_history (retains ++ [horizon]) full_history).map dedup_split_for_lsn)
    (hflags : flags =
      imageFlags base.isSome thr buckets.length 0 0 (buckets.map List.length)) :
    (∀ j b, j ≤ retains.length → buckets.get? j = some b →
      (flags.get? j = some true →
        ∃ img s, (retains ++ [horizon]).get? j = some s ∧
          r.below_horizon.get? j = some (s, [(s, Value.image img)])) ∧
      (flags.get? j = some false →
        ∃ s, (retains ++ [horizon]).get? j = some s ∧
          r.below_horizon.get? j = some (s, b.map (fun e => (e.2.1, e.2.2))))) ∧
    (flags.get? (retains.length + 1) = none ∨
      flags.get? (retains.length + 1) = some false) ∧
    (∀ b, buckets.get? (retains.length + 1) = some b →
      r.above_horizon = b.map (fun e => (e.2.1, e.2.2))) := by
  subst hbuckets hflags
  have hbucklen : (((split_history (retains ++ [horizon]) full_history).map
      dedup_split_for_lsn)).length = (retains ++ [horizon]).length + 1 := by
    rw [List.length_map, split_history_length]
  have hsl : 1 ≤ (retains ++ [horizon]).length := by simp
  have hinitgood2 : GoodReplay
      ((base.elim [] (fun p => [(p.1, p.2.1, Value.image p.2.2)])) : List HistoryEntry) := by
    cases base with
    | none => trivial
    | some p => exact ⟨rfl, by simp⟩
  have hok2 : (match gkrLoop recon key (retains ++ [horizon])
      ((split_history (retains ++ [horizon]) full_history).map dedup_split_for_lsn).length
      base.isSome thr 0
      ⟨base.elim [] (fun p => [(p.1, p.2.1, Value.image p.2.2)]), 0, []⟩
      ((split_history (retains ++ [horizon]) full_history).map dedup_split_for_lsn) with
    | .error e2 => (Except.error e2 : Except GkrErr KeyHistoryRetention)
    | .ok st => assembleRetention (retains ++ [horizon]) 0 st.retention []) =
      .ok r := by
    cases base with
    | none => exact hok
    | some p => exact hok
  obtain ⟨e2, hloop⟩ | ⟨st', hloop⟩ :
      (∃ e2, gkrLoop recon key (retains ++ [horizon])
        ((split_history (retains ++ [horizon]) full_history).map dedup_split_for_lsn).length
        base.isSome thr 0
        ⟨base.elim [] (fun p => [(p.1, p.2.1, Value.image p.2.2)]), 0, []⟩
        ((split_history (retains ++ [horizon]) full_history).map dedup_split_for_lsn) =
          .error e2) ∨
      (∃ st', gkrLoop recon key (retains ++ [horizon])
        ((split_history (retains ++ [horizon]) full_history).map dedup_split_for_lsn).length
        base.isSome thr 0
        ⟨base.elim [] (fun p => [(p.1, p.2.1, Value.image p.2.2)]), 0, []⟩
        ((split_history (retains ++ [horizon]) full_history).map dedup_split_for_lsn) =
          .ok st') := by
    cases gkrLoop recon key (retains ++ [horizon])
        ((split_history (retains ++ [horizon]) full_history).map dedup_split_for_lsn).length
        base.isSome thr 0
        ⟨base.elim [] (fun p => [(p.1, p.2.1, Value.image p.2.2)]), 0, []⟩
        ((split_history (retains ++ [horizon]) full_history).map dedup_split_for_lsn) with
    | error e2 => exact Or.inl ⟨e2, rfl⟩
    | ok st' => exact Or.inr ⟨st', rfl⟩
  · rw [hloop] at hok2
    dsimp only at hok2
    cases hok2
  · rw [hloop] at hok2
    dsimp only at hok2
    obtain ⟨outs, houts, hlenouts, hspec⟩ := gkrLoop_flags recon key
      (retains ++ [horizon]) _ base.isSome thr hbucklen hsl _ 0 _ st'
      (by simpa using hbucklen) hinitgood2 (fun _ => rfl) hloop
    obtain ⟨hbelow, habove⟩ := assembleRetention_spec (retains ++ [horizon])
      st'.retention 0 [] r hok2
    rw [List.drop_zero, List.nil_append] at hbelow
    have hret : st'.retention = outs := by simpa using houts
    refine ⟨?_, ?_, ?_⟩
    · intro j b hj hbj
      obtain ⟨hA, hB⟩ := hspec j b hbj
      constructor
      · intro hfl
        obtain ⟨img, s, hs, houtj⟩ := hA hfl
        rw [Nat.zero_add] at hs
        refine ⟨img, s, hs, ?_⟩
        rw [hbelow]
        exact zip_get?_eq _ _ j s _ hs (by rw [hret]; exact houtj)
      · intro hfl
        obtain ⟨s, hs⟩ : ∃ s, (retains ++ [horizon]).get? j = some s := by
          have hjlt : j < (retains ++ [horizon]).length := by simp; omega
          exact ⟨_, List.get?_eq_get hjlt⟩
        have houtj := hB hfl
        refine ⟨s, hs, ?_⟩
        rw [hbelow]
        exact zip_get?_eq _ _ j s _ hs (by rw [hret]; exact houtj)
    · by_cases hlt : retains.length + 1 <
          (((split_history (retains ++ [horizon]) full_history).map
            dedup_split_for_lsn).map List.length).length
      · right
        exact imageFlags_last base.isSome thr _ (by simp [hbucklen]) _ 0 0
          (retains.length + 1) (by simp [hbucklen]) hlt
      · left
        refine List.get?_eq_none.mpr ?_
        rw [imageFlags_length]
        omega
    · intro b hbj
      obtain ⟨_, hB⟩ := hspec (retains.length + 1) b hbj
      have hlast : (retains ++ [horizon]).length - 0 = retains.length + 1 := by simp
      rw [hlast] at habove
      have hfl : (imageFlags base.isSome thr
          (((split_history (retains ++ [horizon]) full_history).map
            dedup_split_for_lsn)).length 0 0
          (((split_history (retains ++ [horizon]) full_history).map
            dedup_split_for_lsn).map List.length)).get? (retains.length + 1) =
          some false := by
        refine imageFlags_last base.isSome thr _ (by simp [hbucklen]) _ 0 0
          (retains.length + 1) (by simp [hbucklen]) ?_
        have := List.get?_eq_some.mp hbj
        obtain ⟨hlt, _⟩ := this
        simpa using hlt
      have houtj := hB hfl
      rw [hret] at habove
      rw [habove] at houtj
      exact Option.some.inj houtj

/-- C2: the claim states the image-emission policy as: emit at bucket `i`
exactly when (`i = 0` and no ancestor base image) or (`i` neither first nor
last and the records since the last image reach the threshold).  The code
disagrees in both directions.  First run: no ancestor, horizon `0x10`, no
retain LSNs, and a history whose only entry lies above the horizon — bucket
0 satisfies the claim's condition (`i = 0`, no ancestor) yet no image is
emitted for it (the code additionally requires
`records_since_last_image > 0`), so `below_horizon` holds an empty delta
list.  Second run: an ancestor image and five records in bucket 0 at the
threshold — the claim forbids an image for bucket 0 (it is the first
bucket), yet the code emits one. -/
theorem generate_key_retention_emission_policy_counterexample :
    (generate_key_retention (fun _ _ _ => []) 1 [(1, 32, Value.image [7])] 16 [] 5
        none = .ok ⟨[(16, [])], [(32, Value.image [7])]⟩) ∧
    (generate_key_retention (fun _ lsn _ => [lsn]) 1
        [(1, 10, Value.walRecord false [1]), (1, 11, Value.walRecord false [2]),
         (1, 12, Value.walRecord false [3]), (1, 13, Value.walRecord false [4]),
         (1, 14, Value.walRecord false [5])] 16 [] 5 (some (1, 8, [9])) =
      .ok ⟨[(16, [(16, Value.image [16])])], []⟩) := by
  constructor
  · rfl
  · rfl

/-- Witness for `generate_key_retention_incomplete_history`: with no
ancestor image and a history whose first bucket holds only a
non-initialising WAL record, `generate_key_retention` fails. -/
theorem generate_key_retention_incomplete_history_witness :
    ∃ e, generate_key_retention (fun _ _ _ => []) 1
      [(1, 10, Value.walRecord false [1])] 16 [] 5 none = Except.error e :=
  (generate_key_retention_incomplete_history (fun _ _ _ => []) 1
      [(1, 10, Value.walRecord false [1])] 16 [] 5 none).1.mpr ⟨rfl, rfl⟩

/-- Witness for `generate_key_retention_buckets`: a sorted two-entry history
with horizon 16 and no retain LSNs yields a single below-horizon bucket
keyed by the horizon. -/
theorem generate_key_retention_buckets_witness :
    ([(1, 10, Value.image [7])] : List HistoryEntry).Pairwise
        (fun a b => a.2.1 ≤ b.2.1) ∧
    ((KeyHistoryRetention.mk [(16, [(16, Value.image [16])])] []).below_horizon.map
        Prod.fst = ([] : List Nat) ++ [16] ∧
      (KeyHistoryRetention.mk [(16, [(16, Value.image [16])])]
        []).below_horizon.length = ([] : List Nat).length + 1) :=
  ⟨by decide,
    (generate_key_retention_buckets (fun _ lsn _ => [lsn]) 1
        [(1, 10, Value.image [7])] 16 [] 5 none (by decide)).2
      ⟨[(16, [(16, Value.image [16])])], []⟩ rfl⟩

/-- Witness for `generate_key_retention_image_emission`: on a run whose first
bucket has flag `true`, the first below-horizon entry is the singleton image
at the horizon. -/
theorem generate_key_retention_image_emission_witness :
    ∃ img s, (([] : List Nat) ++ [16]).get? 0 = some s ∧
      (KeyHistoryRetention.mk [(16, [(16, Value.image [16])])]
        []).below_horizon.get? 0 = some (s, [(s, Value.image img)]) :=
  ((generate_key_retention_image_emission (fun _ lsn _ => [lsn]) 1
      [(1, 10, Value.image [7]), (1, 12, Value.walRecord false [2])] 16 [] 5 none
      ⟨[(16, [(16, Value.image [16])])], []⟩ rfl
      [[(1, 10, Value.image [7]), (1, 12, Value.walRecord false [2])], []]
      [true, false] rfl rfl).1 0
      [(1, 10, Value.image [7]), (1, 12, Value.walRecord false [2])]
      (Nat.le_refl 0) rfl).1 rfl

theorem l0Boundary_spec (tfs lsnEnd : Nat) (holes : List (Nat × Nat))
    (key lsn : Nat) (st : L0LoopState)
    (hinv : st.writer.isSome = true → st.prevKey.isSome = true) :
    ∃ st1, l0Boundary tfs lsnEnd holes key lsn st = .ok st1 ∧
      st1.keys = st.keys ∧ st1.prevKey = st.prevKey ∧
      (st1.writer.isSome = true → st.writer.isSome = true) := by
  unfold l0Boundary
  split
  · dsimp only
    generalize (if st.prevKey = some key then st.dupEndLsn else 0) = del0
    generalize l0Lookahead tfs lsnEnd key lsn st.keysIter 0 st.kvts 0 del0 = la
    generalize (if la.2.2.2.2 ≠ 0 ∧ la.2.2.2.1 = 0 then la.2.2.2.2 else la.2.2.2.1) = dsl2
    generalize hdel2 : (if la.2.2.2.2 ≠ 0 ∧ la.2.2.2.1 = 0 then lsnEnd else la.2.2.2.2) = del2
    rcases hw : st.writer with _ | w
    · exact ⟨_, rfl, rfl, rfl, fun h => h⟩
    · dsimp only
      split
      · have hps : st.prevKey.isSome = true := hinv (by rw [hw]; rfl)
        obtain ⟨pk, hpk⟩ := Option.isSome_iff_exists.mp hps
        rw [hpk]
        dsimp only
        exact ⟨_, rfl, rfl, rfl, fun _ => rfl⟩
      · exact ⟨_, rfl, rfl, rfl, fun h => h⟩
  · exact ⟨st, rfl, rfl, rfl, fun h => h⟩

theorem l0Step_spec (cancel : Nat → Bool) (tfs lsnStart lsnEnd : Nat)
    (holes : List (Nat × Nat)) (disposable : Nat → Bool)
    (item : Nat × Nat × Nat × Value) (t : Nat) (st : L0LoopState)
    (hinv : st.writer.isSome = true → st.prevKey.isSome = true) :
    ((st.keys + 1) % 32768 = 0 → cancel t = true →
      l0Step cancel tfs lsnStart lsnEnd holes disposable item t st =
        .error .shuttingDown) ∧
    (∀ e, l0Step cancel tfs lsnStart lsnEnd holes disposable item t st =
        .error e → e = .shuttingDown) ∧
    (∀ st', l0Step cancel tfs lsnStart lsnEnd holes disposable item t st =
        .ok st' →
      st'.prevKey.isSome = true ∧
      (st'.keys = st.keys + 1 ∨ (st'.keys = 0 ∧ cancel t = false))) := by
  obtain ⟨st1, hb, hbk, hbp, hbw⟩ := l0Boundary_spec tfs lsnEnd holes item.1 item.2.1
    { st with keys := st.keys + 1 } (fun h => hinv h)
  unfold l0Step
  dsimp only
  by_cases hm : ((st.keys + 1) % 32768 = 0 ∧ cancel t = true)
  · rw [if_pos hm]
    refine ⟨fun _ _ => rfl, fun e he => ?_, fun st' h => by cases h⟩
    injection he with h
    exact h.symm
  · rw [if_neg hm]
    rw [hb]
    dsimp only
    refine ⟨fun h1 h2 => absurd ⟨h1, h2⟩ hm, ?_, ?_⟩
    · intro e he
      by_cases hd : disposable item.1 = true
      · rw [if_pos hd] at he
        cases he
      · rw [if_neg hd] at he
        rcases hw1 : st1.writer with _ | w
        · rw [hw1] at he
          dsimp only at he
          by_cases hc : cancel t = true
          · rw [if_pos hc] at he
            injection he with h
            exact h.symm
          · rw [if_neg hc] at he
            cases he
        · rw [hw1] at he
          dsimp only at he
          cases he
    · intro st' hok
      by_cases hd : disposable item.1 = true
      · rw [if_pos hd] at hok
        injection hok with hok
        subst hok
        exact ⟨rfl, Or.inl hbk⟩
      · rw [if_neg hd] at hok
        rcases hw1 : st1.writer with _ | w
        · rw [hw1] at hok
          dsimp only at hok
          by_cases hc : cancel t = true
          · rw [if_pos hc] at hok
            cases hok
          · rw [if_neg hc] at hok
            injection hok with hok
            subst hok
            exact ⟨rfl, Or.inr ⟨rfl, by simpa using hc⟩⟩
        · rw [hw1] at hok
          dsimp only at hok
          injection hok with hok
          subst hok
          exact ⟨rfl, Or.inl hbk⟩

theorem l0Loop_cancelled (cancel : Nat → Bool) (N : Nat)
    (hmono : ∀ u, N ≤ u → cancel u = true) (tfs lsnStart lsnEnd : Nat)
    (holes : List (Nat × Nat)) (disposable : Nat → Bool) :
    ∀ stream : List (Nat × Nat × Nat × Value), ∀ t : Nat, ∀ st : L0LoopState,
      (st.writer.isSome = true → st.prevKey.isSome = true) →
      (N ≤ t → 32768 - st.keys % 32768 ≤ stream.length) →
      (t < N → N - t + 32768 ≤ stream.length) →
      l0Loop cancel tfs lsnStart lsnEnd holes disposable stream t st =
        .error .shuttingDown := by
  intro stream
  induction stream with
  | nil =>
    intro t st hinv h1 h2
    exfalso
    rcases Nat.lt_or_ge t N with ht | ht
    · have := h2 ht
      simp only [List.length_nil] at this
      omega
    · have := h1 ht
      simp only [List.length_nil] at this
      omega
  | cons item rest ih =>
    intro t st hinv h1 h2
    obtain ⟨hc1, hc2, hc3⟩ := l0Step_spec cancel tfs lsnStart lsnEnd holes
      disposable item t st hinv
    show (match l0Step cancel tfs lsnStart lsnEnd holes disposable item t st with
      | .error e => .error e
      | .ok st' => l0Loop cancel tfs lsnStart lsnEnd holes disposable rest (t + 1) st') =
      Except.error CompactionError.shuttingDown
    obtain ⟨e, hstep⟩ | ⟨st', hstep⟩ :
        (∃ e, l0Step cancel tfs lsnStart lsnEnd holes disposable item t st =
          .error e) ∨
        (∃ s, l0Step cancel tfs lsnStart lsnEnd holes disposable item t st =
          .ok s) := by
      cases l0Step cancel tfs lsnStart lsnEnd holes disposable item t st with
      | error e => exact Or.inl ⟨e, rfl⟩
      | ok s => exact Or.inr ⟨s, rfl⟩
    · rw [hstep]
      dsimp only
      rw [hc2 e hstep]
    · rw [hstep]
      dsimp only
      obtain ⟨hprev, hkeys⟩ := hc3 st' hstep
      refine ih (t + 1) st' (fun _ => hprev) ?_ ?_
      · intro hNt1
        rcases Nat.lt_or_ge t N with ht | ht
        · have hb2 := h2 ht
          simp only [List.length_cons] at hb2
          omega
        · have hct : cancel t = true := hmono t ht
          rcases hkeys with hk | ⟨hk0, hcf⟩
          · by_cases hmod : (st.keys + 1) % 32768 = 0
            · have herr := hc1 hmod hct
              rw [herr] at hstep
              cases hstep
            · have hb1 := h1 ht
              simp only [List.length_cons] at hb1
              rw [hk]
              omega
          · rw [hcf] at hct
            cases hct
      · intro ht1
        have hb2 := h2 (by omega)
        simp only [List.length_cons] at hb2
        omega

theorem generate_key_retention_ok_of_ancestor
    (recon : Nat → Nat → ValueReconstructState → Bytes) (key : Nat)
    (full_history : List HistoryEntry) (horizon : Nat) (retains : List Nat)
    (thr : Nat) (p : Nat × Nat × Bytes) :
    ∃ r, generate_key_retention recon key full_history horizon retains thr
      (some p) = .ok r := by
  have hbucklen : (((split_history (retains ++ [horizon]) full_history).map
      dedup_split_for_lsn)).length = (retains ++ [horizon]).length + 1 := by
    rw [List.length_map, split_history_length]
  have hsl : 1 ≤ (retains ++ [horizon]).length := by simp
  obtain ⟨st', hloop⟩ := gkrLoop_ok recon key (retains ++ [horizon])
    ((split_history (retains ++ [horizon]) full_history).map
      dedup_split_for_lsn).length
    true thr hbucklen hsl
    ((split_history (retains ++ [horizon]) full_history).map dedup_split_for_lsn)
    0 ⟨[(p.1, p.2.1, Value.image p.2.2)], 0, []⟩ (by simpa using hbucklen)
    (show GoodReplay [(p.1, p.2.1, Value.image p.2.2)] from ⟨rfl, by simp⟩)
    (fun _ => rfl)
    (fun h => absurd h (by simp))
  obtain ⟨outs, houts, hlenouts, _⟩ := gkrLoop_flags recon key
    (retains ++ [horizon]) _ true thr hbucklen hsl _ 0 _ st'
    (by simpa using hbucklen)
    (show GoodReplay [(p.1, p.2.1, Value.image p.2.2)] from ⟨rfl, by simp⟩)
    (fun _ => rfl) hloop
  have hretlen : st'.retention.length + 0 = (retains ++ [horizon]).length + 1 := by
    rw [houts]
    simp [hlenouts, hbucklen]
  obtain ⟨r, hassem⟩ := assembleRetention_total (retains ++ [horizon])
    st'.retention 0 [] hretlen (Nat.zero_le _)
  refine ⟨r, ?_⟩
  show (match gkrLoop recon key (retains ++ [horizon])
      ((split_history (retains ++ [horizon]) full_history).map
        dedup_split_for_lsn).length
      true thr 0 ⟨[(p.1, p.2.1, Value.image p.2.2)], 0, []⟩
      ((split_history (retains ++ [horizon]) full_history).map
        dedup_split_for_lsn) with
    | .error e => (Except.error e : Except GkrErr KeyHistoryRetention)
    | .ok st => assembleRetention (retains ++ [horizon]) 0 st.retention []) =
    .ok r
  rw [hloop]
  dsimp only
  exact hassem

theorem gcLoop_cancelled (cancel : Nat → Bool) (N : Nat)
    (hmono : ∀ u, N ≤ u → cancel u = true)
    (recon : Nat → Nat → ValueReconstructState → Bytes) (gc_cutoff : Nat)
    (retains : List Nat) (base : Nat → Option (Nat × Nat × Bytes))
    (hbase : ∀ k, (base k).isSome = true) :
    ∀ stream : List (Nat × Nat × Value), ∀ t : Nat,
      ∀ lastKey : Option Nat, ∀ acc : List HistoryEntry,
      ∀ out : List (Nat × KeyHistoryRetention),
      t ≤ N → N < t + stream.length →
      gcLoop cancel recon gc_cutoff retains base stream t lastKey acc out =
        .error (.other "cancelled") := by
  intro stream
  induction stream with
  | nil =>
    intro t lastKey acc out h1 h2
    exfalso
    simp only [List.length_nil] at h2
    omega
  | cons item rest ih =>
    intro t lastKey acc out h1 h2
    obtain ⟨key, lsn, val⟩ := item
    show (if cancel t = true then .error (.other "cancelled")
      else
        match lastKey with
        | none =>
          gcLoop cancel recon gc_cutoff retains base rest (t + 1) (some key)
            (acc ++ [(key, lsn, val)]) out
        | some lk =>
          if lk = key then
            gcLoop cancel recon gc_cutoff retains base rest (t + 1) (some key)
              (acc ++ [(key, lsn, val)]) out
          else
            match generate_key_retention recon lk acc gc_cutoff retains
                COMPACTION_DELTA_THRESHOLD (base lk) with
            | .error _ => .error (.other "key retention")
            | .ok r =>
              gcLoop cancel recon gc_cutoff retains base rest (t + 1) (some key)
                [(key, lsn, val)] (out ++ [(lk, r)])) =
      Except.error (CompactionError.other "cancelled")
    by_cases hct : cancel t = true
    · rw [if_pos hct]
    · rw [if_neg hct]
      have htN : t < N := by
        rcases Nat.lt_or_ge t N with h | h
        · exact h
        · exact absurd (hmono t h) hct
      simp only [List.length_cons] at h2
      cases lastKey with
      | none =>
        exact ih (t + 1) (some key) (acc ++ [(key, lsn, val)]) out
          (by omega) (by omega)
      | some lk =>
        dsimp only
        by_cases hlk : lk = key
        · rw [if_pos hlk]
          exact ih (t + 1) (some key) (acc ++ [(key, lsn, val)]) out
            (by omega) (by omega)
        · rw [if_neg hlk]
          obtain ⟨p, hp⟩ := Option.isSome_iff_exists.mp (hbase lk)
          obtain ⟨r, hr⟩ := generate_key_retention_ok_of_ancestor recon lk acc
            gc_cutoff retains COMPACTION_DELTA_THRESHOLD p
          rw [hp, hr]
          dsimp only
          exact ih (t + 1) (some key) [(key, lsn, val)] (out ++ [(lk, r)])
            (by omega) (by omega)

/-- C6 (amended): with a cancellation token that stays cancelled from
clock `N` on, (1) an L0→L1 compaction run that gets past the
too-few-deltas early return and whose key stream extends at least 32768
keys past `N` returns the distinguished `ShuttingDown` error — the token
is checked every 32768 keys and at every writer creation — and commits
nothing (the committed layers are the `.ok` payload); (2) a GC-compaction
run whose merged stream reaches clock `N` (with every key's ancestor
image available, so that `generate_key_retention` itself cannot fail
first) returns the generic `anyhow` error `"cancelled"`, not
`ShuttingDown`, and likewise commits nothing. -/
theorem compaction_cancellation (cancel : Nat → Bool) (N : Nat)
    (hmono : ∀ u, N ≤ u → cancel u = true) (numDeltas threshold : Nat)
    (tfs lsnStart lsnEnd : Nat) (holes : List (Nat × Nat))
    (disposable : Nat → Bool) (stream : List (Nat × Nat × Nat × Value))
    (recon : Nat → Nat → ValueReconstructState → Bytes) (gc_cutoff : Nat)
    (retains : List Nat) (base : Nat → Option (Nat × Nat × Bytes))
    (gstream : List (Nat × Nat × Value)) :
    (threshold ≤ numDeltas → 1 ≤ numDeltas → N + 32768 ≤ stream.length →
      compact_level0 cancel numDeltas threshold tfs lsnStart lsnEnd holes
        disposable stream = .error .shuttingDown) ∧
    ((∀ k, (base k).isSome = true) → N ≤ gstream.length →
      compact_with_gc cancel recon gc_cutoff retains base gstream =
        .error (.other "cancelled")) := by
  constructor
  · intro hthr hnd hlen
    unfold compact_level0 compact_level0_phase1
    rw [if_neg (by omega : ¬ (numDeltas = 0 ∨ numDeltas < threshold))]
    by_cases hc0 : cancel 0 = true
    · rw [if_pos hc0]
    · rw [if_neg hc0]
      have hloop := l0Loop_cancelled cancel N hmono tfs lsnStart lsnEnd holes
        disposable stream 0 ⟨[], none, 0, 0, 0, 0, 0, none, stream⟩
        (fun h => by cases h)
        (fun _ => by simp only [Nat.zero_mod, Nat.sub_zero]; omega)
        (fun _ => by omega)
      rw [hloop]
  · intro hbase hlen
    unfold compact_with_gc
    by_cases hc0 : cancel 0 = true
    · rw [if_pos hc0]
    · rw [if_neg hc0]
      have hN1 : 1 ≤ N := by
        rcases Nat.eq_zero_or_pos N with h | h
        · exact absurd (hmono 0 (by omega)) hc0
        · exact h
      exact gcLoop_cancelled cancel N hmono recon gc_cutoff retains base hbase
        gstream 1 none [] [] hN1 (by omega)

/-- C6 counterexample to the original claim: a GC-compaction run that
observes cancellation in its main loop (the token becomes cancelled after
the gc lock is acquired) returns the generic `anyhow!("cancelled")`
error, which is not the distinguished `ShuttingDown` error. -/
theorem compact_with_gc_cancellation_counterexample :
    compact_with_gc (fun t => decide (1 ≤ t)) (fun _ _ _ => []) 16 []
        (fun _ => some (1, 8, [9])) [(1, 10, Value.image [7])] =
      .error (.other "cancelled") ∧
    CompactionError.other "cancelled" ≠ CompactionError.shuttingDown :=
  ⟨rfl, by decide⟩

/-- Witness for `compaction_cancellation`: a token cancelled from the
start makes L0→L1 compaction of a 32768-key stream return `ShuttingDown`
and GC-compaction return the generic `"cancelled"` error. -/
theorem compaction_cancellation_witness :
    compact_level0 (fun _ => true) 1 1 100 0 50 [] (fun _ => false)
        (List.replicate 32768 (0, 0, 0, Value.image [])) =
      .error .shuttingDown ∧
    compact_with_gc (fun _ => true) (fun _ _ _ => []) 16 []
        (fun _ => some (1, 8, [9])) [(1, 10, Value.image [7])] =
      .error (.other "cancelled") :=
  ⟨(compaction_cancellation (fun _ => true) 0 (fun _ _ => rfl) 1 1 100 0 50 []
      (fun _ => false) (List.replicate 32768 (0, 0, 0, Value.image []))
      (fun _ _ _ => []) 16 [] (fun _ => some (1, 8, [9]))
      [(1, 10, Value.image [7])]).1 (by decide) (by decide)
      (by simp only [List.length_replicate]; omega),
   (compaction_cancellation (fun _ => true) 0 (fun _ _ => rfl) 1 1 100 0 50 []
      (fun _ => false) (List.replicate 32768 (0, 0, 0, Value.image []))
      (fun _ _ _ => []) 16 [] (fun _ => some (1, 8, [9]))
      [(1, 10, Value.image [7])]).2 (fun _ => rfl) (by simp)⟩

end NeonSpec